import Mathlib

/-!
Verification of the receipts Merkle-Patricia Trie root computation of the
`rpc-tests` repository.

The Python sources embedded here are:
* `src/rpctests/eth/trie/mpt.py`   — `compute_trie_root`, `EMPTY_TRIE_ROOT`;
* `src/rpctests/eth/trie/receipt.py` — `ReceiptValue.encode`,
  `compute_receipts_root`.

The trie and RLP behaviour itself is delegated by the source to external
libraries (`trie.HexaryTrie`, `rlp`); those parts are modelled from the
specification (RLP codec, hex-prefix encoder, trie node model, trie builder,
keccak256), faithful to its words.

Bytes are modelled as `Nat` values `< 256`, byte buffers as `List Nat`,
machine words as `Nat` with explicit reduction `% 2 ^ 64`.
-/

namespace RpcTests

/-! ### keccak256

Modelled from the spec: the standard keccak256 hash function (glossary:
"the 256-bit cryptographic hash function used throughout Ethereum, distinct
from standardized SHA3"), i.e. Keccak-f[1600] with rate 136 bytes and the
original Keccak padding `0x01 … 0x80`.  The source delegates hashing to the
`trie` library. -/

/-- 64-bit left rotation on a `Nat` representing a word `< 2 ^ 64`. -/
def rotl64 (x n : Nat) : Nat :=
  ((x <<< n) ||| (x >>> (64 - n))) % (2 ^ 64)

/-- 64-bit bitwise complement. -/
def not64 (x : Nat) : Nat := Nat.xor x 0xFFFFFFFFFFFFFFFF

/-- The 24 Keccak-f[1600] round constants. -/
def keccakRC : List Nat :=
  [0x0000000000000001, 0x0000000000008082, 0x800000000000808A, 0x8000000080008000] ++
  [0x000000000000808B, 0x0000000080000001, 0x8000000080008081, 0x8000000000008009] ++
  [0x000000000000008A, 0x0000000000000088, 0x0000000080008009, 0x000000008000000A] ++
  [0x000000008000808B, 0x800000000000008B, 0x8000000000008089, 0x8000000000008003] ++
  [0x8000000000008002, 0x8000000000000080, 0x000000000000800A, 0x800000008000000A] ++
  [0x8000000080008081, 0x8000000000008080, 0x0000000080000001, 0x8000000080008008]

/-- The Keccak rotation offsets, as a flat list indexed by `x + 5 * y`. -/
def keccakRot : List Nat :=
  [0, 1, 62, 28, 27] ++ [36, 44, 6, 55, 20] ++ [3, 10, 43, 25, 39] ++
  [41, 45, 15, 21, 8] ++ [18, 2, 61, 56, 14]

/-- The θ step of a Keccak-f round: state is a flat list of 25 lanes,
lane `(x, y)` at index `x + 5 * y`. -/
def keccakTheta (A : List Nat) : List Nat :=
  let C := (List.range 5).map fun x =>
    Nat.xor (Nat.xor (Nat.xor (Nat.xor (A.getD x 0) (A.getD (x + 5) 0))
      (A.getD (x + 10) 0)) (A.getD (x + 15) 0)) (A.getD (x + 20) 0)
  let D := (List.range 5).map fun x =>
    Nat.xor (C.getD ((x + 4) % 5) 0) (rotl64 (C.getD ((x + 1) % 5) 0) 1)
  (List.range 25).map fun i => Nat.xor (A.getD i 0) (D.getD (i % 5) 0)

/-- The combined ρ and π steps: output lane `(X, Y)` is the rotation of input
lane `((X + 3 Y) % 5, X)` by its offset. -/
def keccakRhoPi (A : List Nat) : List Nat :=
  (List.range 25).map fun j =>
    let X := j % 5
    let Y := j / 5
    let src := (X + 3 * Y) % 5 + 5 * X
    rotl64 (A.getD src 0) (keccakRot.getD src 0)

/-- The χ step. -/
def keccakChi (B : List Nat) : List Nat :=
  (List.range 25).map fun i =>
    let x := i % 5
    let y := i / 5
    Nat.xor (B.getD i 0)
      (Nat.land (not64 (B.getD ((x + 1) % 5 + 5 * y) 0)) (B.getD ((x + 2) % 5 + 5 * y) 0))

/-- One Keccak-f round (θ, ρ, π, χ, ι with round constant `rc`). -/
def keccakRound (A : List Nat) (rc : Nat) : List Nat :=
  let B := keccakChi (keccakRhoPi (keccakTheta A))
  B.set 0 (Nat.xor (B.getD 0 0) rc)

/-- The full Keccak-f[1600] permutation: 24 rounds. -/
def keccakF (A : List Nat) : List Nat :=
  keccakRC.foldl keccakRound A

/-- Interpret (up to) 8 bytes as a little-endian 64-bit word. -/
def bytesToWordLE (bs : List Nat) : Nat :=
  bs.foldr (fun b acc => b + 256 * acc) 0

/-- The 8 little-endian bytes of a 64-bit word. -/
def wordToBytesLE (w : Nat) : List Nat :=
  (List.range 8).map fun i => w / 256 ^ i % 256

/-- Keccak (pre-SHA3) padding to a multiple of the 136-byte rate:
append `0x01`, zero or more `0x00`, then `0x80` (a single `0x81` byte when
only one padding byte fits). -/
def keccakPad (msg : List Nat) : List Nat :=
  let padlen := 136 - msg.length % 136
  if padlen = 1 then msg ++ [0x81]
  else msg ++ [0x01] ++ List.replicate (padlen - 2) 0 ++ [0x80]

/-- Split a list into chunks of 136 elements (fuel-driven, structurally
recursive; the fuel is the list length). -/
def chunks136Aux : Nat → List Nat → List (List Nat)
  | 0, _ => []
  | _, [] => []
  | fuel + 1, l => l.take 136 :: chunks136Aux fuel (l.drop 136)

/-- Split a byte list into rate-sized blocks. -/
def chunks136 (l : List Nat) : List (List Nat) := chunks136Aux l.length l

/-- Absorb one 136-byte block into the sponge state and permute. -/
def absorbBlock (A : List Nat) (block : List Nat) : List Nat :=
  keccakF ((List.range 25).map fun i =>
    Nat.xor (A.getD i 0)
      (if i < 17 then bytesToWordLE ((block.drop (8 * i)).take 8) else 0))

/-- keccak256 of a byte list: pad, absorb all blocks, squeeze 32 bytes. -/
def keccak256 (msg : List Nat) : List Nat :=
  let A := (chunks136 (keccakPad msg)).foldl absorbBlock (List.replicate 25 0)
  ((A.take 4).map wordToBytesLE).flatten

-- keccak256 of the empty byte string: the well-known constant `c5d2…a470`,
-- a sanity anchor for the hash model.
set_option maxRecDepth 20000 in
theorem keccak256_nil_golden : keccak256 [] =
    [0xc5, 0xd2, 0x46, 0x01, 0x86, 0xf7, 0x23, 0x3c, 0x92, 0x7e, 0x7d, 0xb2,
     0xdc, 0xc7, 0x03, 0xc0, 0xe5, 0x00, 0xb6, 0x53, 0xca, 0x82, 0x27, 0x3b,
     0x7b, 0xfa, 0xd8, 0x04, 0x5d, 0x85, 0xa4, 0x70] := by rfl

/-! ### RLP codec

Modelled from the spec (§4.1): canonical, length-prefixed, self-describing
byte encoding, as performed by the `rlp` library the source delegates to. -/

/-- Minimal big-endian byte representation of `n` (empty for `n = 0`);
fuel-driven so that it is structurally recursive (`n` itself is enough fuel). -/
def beBytesAux : Nat → Nat → List Nat
  | 0, _ => []
  | fuel + 1, n => if n = 0 then [] else beBytesAux fuel (n / 256) ++ [n % 256]

/-- Minimal big-endian byte representation of a natural number. -/
def beBytes (n : Nat) : List Nat := beBytesAux n n

/-- RLP length header: `base + len` for `len ≤ 55`, else
`base + 55 + len(len_bytes)` followed by the big-endian length. -/
def lenHeader (base len : Nat) : List Nat :=
  if len ≤ 55 then [base + len]
  else (base + 55 + (beBytes len).length) :: beBytes len

/-- RLP encoding of a byte string: a single byte `< 0x80` stands for itself,
anything else gets a `0x80`-based length header. -/
def encodeBytes (b : List Nat) : List Nat :=
  if b.length = 1 ∧ b.headI < 0x80 then b else lenHeader 0x80 b.length ++ b

/-- RLP list encoding given the already-concatenated encodings of the items:
prepend a `0xC0`-based length header. -/
def encodeListPayload (payload : List Nat) : List Nat :=
  lenHeader 0xC0 payload.length ++ payload

/-- RLP encoding of a non-negative integer (`rlp.sedes.big_endian_int`):
`encode_bytes` of the minimal big-endian representation. -/
def rlpUint (n : Nat) : List Nat := encodeBytes (beBytes n)

/-- An RLP-serializable value, as inferred by `rlp.encode` for the
receipt value list: byte strings, non-negative integers and nested lists. -/
inductive RLPItem where
  | bytes (b : List Nat)
  | nat (n : Nat)
  | list (items : List RLPItem)

mutual

/-- RLP encoding of an `RLPItem`. -/
def rlpEncode : RLPItem → List Nat
  | .bytes b => encodeBytes b
  | .nat n => encodeBytes (beBytes n)
  | .list items => encodeListPayload (rlpEncodeItems items)

/-- Concatenated RLP encodings of a list of items. -/
def rlpEncodeItems : List RLPItem → List Nat
  | [] => []
  | it :: rest => rlpEncode it ++ rlpEncodeItems rest

end

/-! ### Hex-prefix encoder and nibbles

Modelled from the spec (§4.2). -/

/-- Pack a nibble sequence of even length two-per-byte, high nibble first. -/
def packNibbles : List Nat → List Nat
  | a :: b :: rest => (16 * a + b) :: packNibbles rest
  | _ => []

/-- Hex-prefix encoding of a nibble path plus leaf/extension flag:
the first output nibble is `2 * is_leaf + parity`; an odd path is absorbed
into the first byte, an even one padded with a zero nibble. -/
def hexPrefixEnc (nibbles : List Nat) (isLeaf : Bool) : List Nat :=
  let flag : Nat := if isLeaf then 2 else 0
  if nibbles.length % 2 = 1 then
    (16 * (flag + 1) + nibbles.headI) :: packNibbles nibbles.tail
  else
    16 * flag :: packNibbles nibbles

/-- A key's nibble sequence: two nibbles per byte, high nibble first. -/
def bytesToNibbles (bs : List Nat) : List Nat :=
  (bs.map fun b => [b / 16, b % 16]).flatten

/-! ### Trie node model

Modelled from the spec (§3, §4.3): tagged union with four variants; a child
reference is the node's own RLP encoding when shorter than 32 bytes, else
the keccak256 of that encoding. -/

/-- A Merkle-Patricia trie node. -/
inductive Node where
  | empty
  | leaf (path : List Nat) (val : List Nat)
  | ext (path : List Nat) (child : Node)
  | branch (children : List Node) (val : Option (List Nat))

/-- `child_ref_encoded ∘ node_ref` of the spec, applied to a serialized node:
embedded verbatim when `< 32` bytes, else the RLP-encoded 32-byte hash. -/
def nodeRefEnc (s : List Nat) : List Nat :=
  if s.length < 32 then s else encodeBytes (keccak256 s)

mutual

/-- RLP serialization of a trie node (spec §4.3). -/
def serialize : Node → List Nat
  | .empty => encodeBytes []
  | .leaf p v => encodeListPayload (encodeBytes (hexPrefixEnc p true) ++ encodeBytes v)
  | .ext p c => encodeListPayload (encodeBytes (hexPrefixEnc p false) ++ nodeRefEnc (serialize c))
  | .branch cs v =>
    encodeListPayload (serializeChildren cs ++ encodeBytes (v.getD []))

/-- Concatenated child references of a branch node's children. -/
def serializeChildren : List Node → List Nat
  | [] => []
  | c :: rest => nodeRefEnc (serialize c) ++ serializeChildren rest

end

/-- The root is always reported as a hash: `keccak256(serialize(root))`
(spec §4.4). -/
def rootHash (t : Node) : List Nat := keccak256 (serialize t)

/-! ### Trie builder

Modelled from the spec (§4.4): a single in-memory root node, initialized to
`Empty`; keys are converted to nibble sequences and recursively merged with
the standard Merkle-Patricia rules (overwrite policy: last write wins). -/

/-- Longest common prefix of two nibble sequences. -/
def lcp : List Nat → List Nat → List Nat
  | a :: as, b :: bs => if a = b then a :: lcp as bs else []
  | _, _ => []

theorem lcp_length_le_left : ∀ k p : List Nat, (lcp k p).length ≤ k.length := by
  intro k
  induction k with
  | nil => intro p; cases p <;> simp [lcp]
  | cons a as ih =>
    intro p
    cases p with
    | nil => simp [lcp]
    | cons b bs =>
      by_cases h : a = b <;> simp [lcp, h]
      exact ih bs

/-- The 16 empty child slots of a fresh branch node. -/
def emptyChildren : List Node := List.replicate 16 .empty

/-- Wrap a node in an extension over `p`, unless `p` is empty. -/
def extWrap (p : List Nat) (n : Node) : Node :=
  if p = [] then n else .ext p n

/-- Place a diverging key remainder into a branch node: an empty remainder
populates the branch's own value slot, otherwise a leaf goes into the child
slot of its first nibble. -/
def placeLeaf (b : Node) (rest val : List Nat) : Node :=
  match b, rest with
  | .branch cs _, [] => .branch cs (some val)
  | .branch cs bv, n :: tl => .branch (cs.set n (.leaf tl val)) bv
  | t, _ => t

/-- Insert a `(key, value)` pair (key already as nibbles) into a trie node,
per the standard Merkle-Patricia merge rules of spec §4.4. -/
def insert (t : Node) (k : List Nat) (v : List Nat) : Node :=
  match t with
  | .empty => .leaf k v
  | .leaf p w =>
    if k = p then .leaf p v
    else
      let c := lcp k p
      let p' := p.drop c.length
      let b0 : Node := match p' with
        | [] => .branch emptyChildren (some w)
        | n :: tl => .branch (emptyChildren.set n (.leaf tl w)) none
      extWrap c (placeLeaf b0 (k.drop c.length) v)
  | .ext p child =>
    if (lcp k p).length = p.length then .ext p (insert child (k.drop p.length) v)
    else
      let c := lcp k p
      let p' := p.drop c.length
      let b0 : Node := match p' with
        | [] => .branch emptyChildren none
        | n :: tl => .branch (emptyChildren.set n (extWrap tl child)) none
      extWrap c (placeLeaf b0 (k.drop c.length) v)
  | .branch cs bv =>
    match k with
    | [] => .branch cs (some v)
    | n :: tl => .branch (cs.set n (insert (cs.getD n .empty) tl v)) bv
termination_by (k.length, sizeOf t)
decreasing_by
  · rcases Nat.eq_zero_or_pos p.length with hp | hp
    · have hpnil : p = [] := List.length_eq_zero.mp hp
      subst hpnil
      simp only [List.length_nil, List.drop_zero]
      apply Prod.Lex.right
      simp
    · apply Prod.Lex.left
      have hk := lcp_length_le_left k p
      simp only [List.length_drop]
      omega
  · apply Prod.Lex.left
    simp

/-! ### Receipt encoder

Embedded from the source `src/rpctests/eth/trie/receipt.py`
(`ReceiptValue.encode`).  A receipt is a dictionary; presence of a field is
modelled with `Option`, and a missing dictionary access raises `KeyError`.
The encoding errors the Python code can raise are reified in `PyError`:
`ValueError` (the "neither status nor root" message, which reads the
receipt's block number) and `OverflowError` (`int.to_bytes(length=1)` on a
type value not fitting one byte). -/

/-- A Python exception surfaced by `ReceiptValue.encode`. -/
inductive PyError where
  | keyError (key : String)
  | valueError (blockNumber : Nat)
  | overflowError
deriving DecidableEq

/-- Dictionary lookup, `KeyError` when absent. -/
def getKey {α : Type} (o : Option α) (k : String) : Except PyError α :=
  match o with
  | some a => .ok a
  | none => .error (.keyError k)

/-- One receipt log entry (`address`, `topics`, `data`). -/
structure Log where
  address : List Nat
  topics : List (List Nat)
  data : List Nat

/-- A transaction receipt as consumed by `ReceiptValue.encode`; every field
the code accesses is optional dictionary content. -/
structure Receipt where
  status : Option Nat := none
  root : Option (List Nat) := none
  cumulativeGasUsed : Option Nat := none
  logsBloom : Option (List Nat) := none
  logs : Option (List Log) := none
  type : Option Nat := none
  blockNumber : Option Nat := none

/-- The RLP list `[address, [topic, …], data]` built for one log. -/
def Log.toItem (lg : Log) : RLPItem :=
  .list [.bytes lg.address, .list (lg.topics.map RLPItem.bytes), .bytes lg.data]

/-- The RLP list of all logs of a receipt (`logs_list` in the source). -/
def logsItem (lgs : List Log) : RLPItem := .list (lgs.map Log.toItem)

/-- `ReceiptValue.encode`: build the RLP-serializable value list
(post-Byzantium `[status, cumulativeGasUsed, logsBloom, logs]` when `status`
is present, pre-Byzantium `[root, cumulativeGasUsed, logsBloom, logs]` when
only `root` is), RLP-encode it, and prepend the raw type byte for non-legacy
(`type != 0`) receipts. -/
def Receipt.encode (r : Receipt) : Except PyError (List Nat) := do
  let lgs ← getKey r.logs "logs"
  let logsList := logsItem lgs
  let valueList : List RLPItem ←
    match r.status with
    | some s => do
      let gas ← getKey r.cumulativeGasUsed "cumulativeGasUsed"
      let bloom ← getKey r.logsBloom "logsBloom"
      pure [RLPItem.nat s, RLPItem.nat gas, RLPItem.bytes bloom, logsList]
    | none =>
      match r.root with
      | some rt => do
        let gas ← getKey r.cumulativeGasUsed "cumulativeGasUsed"
        let bloom ← getKey r.logsBloom "logsBloom"
        pure [RLPItem.bytes rt, RLPItem.nat gas, RLPItem.bytes bloom, logsList]
      | none => do
        let bn ← getKey r.blockNumber "blockNumber"
        Except.error (.valueError bn)
  let value := rlpEncode (.list valueList)
  let ty ← getKey r.type "type"
  if ty = 0 then pure value
  else if ty < 256 then pure (ty :: value)
  else Except.error .overflowError

/-! ### Trie root computation

Embedded from the source `src/rpctests/eth/trie/mpt.py`
(`compute_trie_root`, `EMPTY_TRIE_ROOT`) and
`src/rpctests/eth/trie/receipt.py` (`compute_receipts_root`). -/

/-- The `(key, value)` pairs inserted by `compute_trie_root`: the key of the
value at position `index` is `rlp.encode(index, sedes=big_endian_int)`. -/
def insertPairs (values : List (List Nat)) : List (List Nat × List Nat) :=
  values.enum.map fun iv => (rlpUint iv.1, iv.2)

/-- Build the trie from `(key, value)` pairs by successive insertion into an
initially empty root. -/
def trieOfPairs (pairs : List (List Nat × List Nat)) : Node :=
  pairs.foldl (fun t kv => insert t (bytesToNibbles kv.1) kv.2) .empty

/-- `EMPTY_TRIE_ROOT`: the root hash of an empty trie,
`keccak256(RLP(""))`. -/
def EMPTY_TRIE_ROOT : List Nat := keccak256 (encodeBytes [])

/-- `compute_trie_root` applied to already-encoded values. -/
def computeTrieRoot (values : List (List Nat)) : List Nat :=
  rootHash (trieOfPairs (insertPairs values))

/-- `compute_receipts_root`: encode every receipt (first failure
propagates) and compute the trie root over the encoded values. -/
def computeReceiptsRoot (receipts : List Receipt) : Except PyError (List Nat) := do
  let vs ← receipts.mapM Receipt.encode
  pure (computeTrieRoot vs)

/-! ### Helper definitions for the claim statements -/

/-- Does an encode result carry the "malformed receipt" `ValueError`? -/
def isValueError : Except PyError (List Nat) → Bool
  | .error (.valueError _) => true
  | _ => false

/-- Did an encode succeed? -/
def encodeOk : Except PyError (List Nat) → Bool
  | .ok _ => true
  | _ => false

/-- The numeric value denoted by a big-endian byte string. -/
def beFromBytes (bs : List Nat) : Nat :=
  bs.foldl (fun acc b => 256 * acc + b) 0

/-- The single legacy success receipt of spec §8's golden vector. -/
def c2Receipt : Receipt :=
  { status := some 1
    cumulativeGasUsed := some 21000
    logsBloom := some (List.replicate 256 0)
    logs := some []
    type := some 0 }

theorem insert_empty (k v : List Nat) : insert .empty k v = .leaf k v := by
  simp [insert]

/-- The RLP-encoded value of `c2Receipt`. -/
def c2Value : List Nat :=
  rlpEncode (.list [RLPItem.nat 1, RLPItem.nat 21000,
    RLPItem.bytes (List.replicate 256 0), logsItem []])

/-! ### Small lemmas about the `Except` plumbing and RLP integers -/

theorem exbind_ok {α β : Type} (a : α) (f : α → Except PyError β) :
    (Except.ok a >>= f) = f a := rfl

theorem exbind_err {α β : Type} (e : PyError) (f : α → Except PyError β) :
    ((Except.error e : Except PyError α) >>= f) = .error e := rfl

theorem expure {α : Type} (a : α) : (pure a : Except PyError α) = .ok a := rfl

theorem getKey_some {α : Type} (a : α) (k : String) : getKey (some a) k = .ok a := rfl

theorem getKey_none {α : Type} (k : String) :
    getKey (none : Option α) k = .error (.keyError k) := rfl

theorem beBytesAux_zero : ∀ fuel : Nat, beBytesAux fuel 0 = [] := by
  intro fuel
  cases fuel <;> simp [beBytesAux]

theorem beFromBytes_append_one (l : List Nat) (b : Nat) :
    beFromBytes (l ++ [b]) = 256 * beFromBytes l + b := by
  simp [beFromBytes, List.foldl_append]

theorem headI_append_of_ne_nil {l : List Nat} (h : l ≠ []) (l' : List Nat) :
    (l ++ l').headI = l.headI := by
  cases l with
  | nil => exact absurd rfl h
  | cons a as => simp

/-- `beBytesAux` produces the big-endian digits of `n` with no leading zero
byte, provided enough fuel. -/
theorem beBytesAux_spec : ∀ fuel n : Nat, n ≤ fuel →
    beFromBytes (beBytesAux fuel n) = n ∧
    (n ≠ 0 → beBytesAux fuel n ≠ [] ∧ (beBytesAux fuel n).headI ≠ 0) := by
  intro fuel
  induction fuel with
  | zero =>
    intro n hn
    have h0 : n = 0 := Nat.le_zero.mp hn
    subst h0
    simp [beBytesAux, beFromBytes]
  | succ f ih =>
    intro n hn
    by_cases h0 : n = 0
    · subst h0
      simp [beBytesAux, beFromBytes]
    · have hstep : beBytesAux (f + 1) n = beBytesAux f (n / 256) ++ [n % 256] := by
        simp [beBytesAux, h0]
      have hdiv : n / 256 ≤ f := by
        have := Nat.div_lt_self (Nat.pos_of_ne_zero h0) (by norm_num : 1 < 256)
        omega
      obtain ⟨hv, hh⟩ := ih (n / 256) hdiv
      refine ⟨?_, fun _ => ⟨by simp [hstep], ?_⟩⟩
      · rw [hstep, beFromBytes_append_one, hv]
        omega
      · rw [hstep]
        by_cases hq : n / 256 = 0
        · have hlt : n < 256 := (Nat.div_eq_zero_iff (by norm_num)).mp hq
          rw [hq, beBytesAux_zero]
          simp [List.headI]
          omega
        · obtain ⟨hne, hhd⟩ := hh hq
          rw [headI_append_of_ne_nil hne]
          exact hhd

theorem beBytes_spec (n : Nat) :
    beFromBytes (beBytes n) = n ∧
    (n ≠ 0 → beBytes n ≠ [] ∧ (beBytes n).headI ≠ 0) :=
  beBytesAux_spec n n le_rfl

/-! ### The claims -/

set_option maxRecDepth 40000 in
/-- **C1.** For the empty input sequence, `compute_receipts_root([])`
returns the fixed 32-byte empty-trie root `keccak256(RLP(""))`, i.e.
`0x56e81f171bcc55a6ff8345e692c0f86e5b48e01b996cadc001622fb5e363b421`
(the `EMPTY_TRIE_ROOT` constant). -/
theorem claim_C1 :
    computeReceiptsRoot [] = .ok EMPTY_TRIE_ROOT ∧
    EMPTY_TRIE_ROOT =
      [0x56, 0xe8, 0x1f, 0x17, 0x1b, 0xcc, 0x55, 0xa6, 0xff, 0x83, 0x45, 0xe6,
       0x92, 0xc0, 0xf8, 0x6e, 0x5b, 0x48, 0xe0, 0x1b, 0x99, 0x6c, 0xad, 0xc0,
       0x01, 0x62, 0x2f, 0xb5, 0xe3, 0x63, 0xb4, 0x21] := by
  exact ⟨by rfl, by rfl⟩

set_option maxRecDepth 100000 in
set_option maxHeartbeats 1000000 in
/-- **C2.** The singleton input of one legacy receipt (`type = 0`,
`status = 1`, `cumulativeGasUsed = 21000`, 256-zero-byte `logsBloom`,
empty logs) yields the golden root
`0x056b23fbba480696b65fe5a59b8f2148a1299103c4f57df839233af2cf4ca2d2`. -/
theorem claim_C2 : computeReceiptsRoot [c2Receipt] = .ok
    [0x05, 0x6b, 0x23, 0xfb, 0xba, 0x48, 0x06, 0x96, 0xb6, 0x5f, 0xe5, 0xa5,
     0x9b, 0x8f, 0x21, 0x48, 0xa1, 0x29, 0x91, 0x03, 0xc4, 0xf5, 0x7d, 0xf8,
     0x39, 0x23, 0x3a, 0xf2, 0xcf, 0x4c, 0xa2, 0xd2] := by
  have e1 : [c2Receipt].mapM Receipt.encode = .ok [c2Value] := by rfl
  simp only [computeReceiptsRoot, e1]
  show Except.ok (computeTrieRoot [c2Value]) = _
  have e2 : trieOfPairs (insertPairs [c2Value]) = insert .empty [8, 0] c2Value := by rfl
  simp only [computeTrieRoot]
  rw [e2, insert_empty]
  rfl

set_option maxRecDepth 100000 in
set_option maxHeartbeats 2000000 in
/-- Second golden vector of spec §8 (not itself a claim, kept as a further
cross-validation of the split/branch/hashed-child path of the trie model):
two identical legacy receipts. -/
theorem goldenTwoIdenticalReceipts : computeReceiptsRoot [c2Receipt, c2Receipt] = .ok
    [0xd8, 0x5d, 0x19, 0xb0, 0xb3, 0x9b, 0xae, 0xea, 0x9b, 0xd6, 0x4f, 0x1c,
     0xa2, 0x41, 0x5d, 0x68, 0xbf, 0x82, 0x98, 0xd6, 0x31, 0x9a, 0xf2, 0xfd,
     0xa7, 0x4c, 0xd9, 0x8e, 0xc4, 0x3e, 0xad, 0xcc] := by
  have h2 : ∀ v w : List Nat, insert (.leaf [8, 0] w) [0, 1] v =
      .branch ((emptyChildren.set 8 (.leaf [0] w)).set 0 (.leaf [1] v)) none := by
    intro v w
    simp [insert, lcp, placeLeaf, extWrap]
  have e1 : [c2Receipt, c2Receipt].mapM Receipt.encode = .ok [c2Value, c2Value] := by rfl
  simp only [computeReceiptsRoot, e1]
  show Except.ok (computeTrieRoot [c2Value, c2Value]) = _
  have e2 : trieOfPairs (insertPairs [c2Value, c2Value]) =
      insert (insert .empty [8, 0] c2Value) [0, 1] c2Value := by rfl
  simp only [computeTrieRoot]
  rw [e2, insert_empty, h2]
  rfl

/-- If `mapM Receipt.encode` over a receipt list succeeds, every member's
encoding succeeds. -/
theorem mapM_ok_mem : ∀ (rs : List Receipt) (vs : List (List Nat)),
    rs.mapM Receipt.encode = .ok vs → ∀ r ∈ rs, ∃ w, Receipt.encode r = .ok w := by
  intro rs
  induction rs with
  | nil => intro vs _ r hr; simp at hr
  | cons a l ih =>
    intro vs h r hr
    rw [List.mapM_cons] at h
    cases ha : Receipt.encode a with
    | error e => rw [ha] at h; simp [exbind_err] at h
    | ok w =>
      rw [ha, exbind_ok] at h
      cases hl : l.mapM Receipt.encode with
      | error e => rw [hl] at h; simp [exbind_err] at h
      | ok ws =>
        rcases List.mem_cons.mp hr with rfl | hr
        · exact ⟨w, ha⟩
        · exact ih ws hl r hr

/-- C3's counterexample receipt: logs present, everything else absent. -/
def cexC3 : Receipt := { logs := some [] }

/-- **C3 counterexample.** A receipt with neither `status` nor `root` whose
`blockNumber` is also missing does not fail with the malformed-receipt
`ValueError`: it fails with `KeyError("blockNumber")` instead, refuting the
universal claim. -/
theorem claim_C3_cex :
    cexC3.status = none ∧ cexC3.root = none ∧
    Receipt.encode cexC3 = .error (.keyError "blockNumber") ∧
    isValueError (Receipt.encode cexC3) = false := by
  exact ⟨rfl, rfl, by rfl, by rfl⟩

/-- **C3 (amended).** Every receipt that has neither a `status` nor a `root`
field, but does have `logs` and `blockNumber` fields, fails with the
malformed-receipt `ValueError` (reporting its block number), and this error
propagates: `compute_receipts_root` on any sequence containing such a receipt
never returns a root. -/
theorem claim_C3_amended : ∀ (r : Receipt) (lgs : List Log) (bn : Nat),
    r.status = none → r.root = none → r.logs = some lgs → r.blockNumber = some bn →
    Receipt.encode r = .error (.valueError bn) ∧
    ∀ rs : List Receipt, r ∈ rs → ∀ v, computeReceiptsRoot rs ≠ .ok v := by
  intro r lgs bn hs hr hl hb
  have henc : Receipt.encode r = .error (.valueError bn) := by
    simp [Receipt.encode, hs, hr, hl, hb, getKey, exbind_ok, exbind_err, expure]
  refine ⟨henc, ?_⟩
  intro rs hmem v hok
  cases hm : rs.mapM Receipt.encode with
  | error e =>
    unfold computeReceiptsRoot at hok
    rw [hm] at hok
    simp [exbind_err] at hok
  | ok vs =>
    obtain ⟨w, hw⟩ := mapM_ok_mem rs vs hm r hmem
    rw [henc] at hw
    exact absurd hw (by simp)

/-- C3's witness receipt: logs and blockNumber present, status and root
absent. -/
def wC3 : Receipt := { logs := some [], blockNumber := some 7 }

/-- Witness for `claim_C3_amended` at a concrete receipt. -/
theorem claim_C3_witness :
    (wC3.status = none ∧ wC3.root = none ∧ wC3.logs = some [] ∧
      wC3.blockNumber = some 7) ∧
    (Receipt.encode wC3 = .error (.valueError 7) ∧
      ∀ rs : List Receipt, wC3 ∈ rs → ∀ v, computeReceiptsRoot rs ≠ .ok v) :=
  ⟨⟨rfl, rfl, rfl, rfl⟩, claim_C3_amended wC3 [] 7 rfl rfl rfl rfl⟩

/-- **C4.** For a receipt whose `type` is `t ≠ 0`, the encoded value is the
single raw byte `t` prepended (not RLP-wrapped) to the RLP encoding of the
payload list `[discriminator, cumulativeGasUsed, logsBloom, logs]`; for
`t = 0` no prefix byte is added. -/
theorem claim_C4 : ∀ (r : Receipt) (t : Nat) (v : List Nat),
    r.type = some t → Receipt.encode r = .ok v →
    ∃ (lgs : List Log) (g : Nat) (b : List Nat) (disc : RLPItem),
      r.logs = some lgs ∧ r.cumulativeGasUsed = some g ∧ r.logsBloom = some b ∧
      ((∃ s, r.status = some s ∧ disc = .nat s) ∨
        (r.status = none ∧ ∃ rt, r.root = some rt ∧ disc = .bytes rt)) ∧
      (t ≠ 0 → t < 256 ∧
        v = t :: rlpEncode (.list [disc, .nat g, .bytes b, logsItem lgs])) ∧
      (t = 0 → v = rlpEncode (.list [disc, .nat g, .bytes b, logsItem lgs])) := by
  intro r t v ht henc
  cases hl : r.logs with
  | none => simp [Receipt.encode, hl, getKey, exbind_ok, exbind_err, expure] at henc
  | some lgs =>
  cases hg : r.cumulativeGasUsed with
  | none =>
    cases hs : r.status with
    | some s => simp [Receipt.encode, hl, hs, hg, getKey, exbind_ok, exbind_err, expure] at henc
    | none =>
      cases hr : r.root with
      | some rt => simp [Receipt.encode, hl, hs, hr, hg, getKey, exbind_ok, exbind_err, expure] at henc
      | none =>
        cases hb : r.blockNumber with
        | none => simp [Receipt.encode, hl, hs, hr, hb, getKey, exbind_ok, exbind_err, expure] at henc
        | some bn => simp [Receipt.encode, hl, hs, hr, hb, getKey, exbind_ok, exbind_err, expure] at henc
  | some g =>
  cases hb : r.logsBloom with
  | none =>
    cases hs : r.status with
    | some s => simp [Receipt.encode, hl, hs, hg, hb, getKey, exbind_ok, exbind_err, expure] at henc
    | none =>
      cases hr : r.root with
      | some rt => simp [Receipt.encode, hl, hs, hr, hg, hb, getKey, exbind_ok, exbind_err, expure] at henc
      | none =>
        cases hbn : r.blockNumber with
        | none => simp [Receipt.encode, hl, hs, hr, hbn, getKey, exbind_ok, exbind_err, expure] at henc
        | some bn => simp [Receipt.encode, hl, hs, hr, hbn, getKey, exbind_ok, exbind_err, expure] at henc
  | some b =>
  cases hs : r.status with
  | some s =>
    refine ⟨lgs, g, b, .nat s, rfl, rfl, rfl, .inl ⟨s, rfl, rfl⟩, ?_, ?_⟩ <;>
    · intro h0
      simp [Receipt.encode, hl, hs, hg, hb, ht, getKey, exbind_ok, exbind_err, expure, h0] at henc
      first
      | (rcases Nat.lt_or_ge t 256 with h256 | h256
         · simp [h256] at henc
           exact ⟨h256, henc.symm⟩
         · simp [Nat.not_lt.mpr h256] at henc)
      | exact henc.symm
  | none =>
    cases hr : r.root with
    | none =>
      cases hbn : r.blockNumber with
      | none => simp [Receipt.encode, hl, hs, hr, hbn, getKey, exbind_ok, exbind_err, expure] at henc
      | some bn => simp [Receipt.encode, hl, hs, hr, hbn, getKey, exbind_ok, exbind_err, expure] at henc
    | some rt =>
      refine ⟨lgs, g, b, .bytes rt, rfl, rfl, rfl, .inr ⟨rfl, rt, rfl, rfl⟩, ?_, ?_⟩ <;>
      · intro h0
        simp [Receipt.encode, hl, hs, hr, hg, hb, ht, getKey, exbind_ok, exbind_err, expure, h0] at henc
        first
        | (rcases Nat.lt_or_ge t 256 with h256 | h256
           · simp [h256] at henc
             exact ⟨h256, henc.symm⟩
           · simp [Nat.not_lt.mpr h256] at henc)
        | exact henc.symm

/-- C4's witness receipt: an EIP-2718 type-2 receipt. -/
def wC4 : Receipt :=
  { status := some 1, cumulativeGasUsed := some 0, logsBloom := some [],
    logs := some [], type := some 2 }

/-- Witness for `claim_C4` at a concrete typed receipt. -/
theorem claim_C4_witness :
    (wC4.type = some 2 ∧
      Receipt.encode wC4 = .ok [2, 0xc4, 0x01, 0x80, 0x80, 0xc0]) ∧
    (∃ (lgs : List Log) (g : Nat) (b : List Nat) (disc : RLPItem),
      wC4.logs = some lgs ∧ wC4.cumulativeGasUsed = some g ∧ wC4.logsBloom = some b ∧
      ((∃ s, wC4.status = some s ∧ disc = .nat s) ∨
        (wC4.status = none ∧ ∃ rt, wC4.root = some rt ∧ disc = .bytes rt)) ∧
      ((2 : Nat) ≠ 0 → (2 : Nat) < 256 ∧
        [2, 0xc4, 0x01, 0x80, 0x80, 0xc0] =
          2 :: rlpEncode (.list [disc, .nat g, .bytes b, logsItem lgs])) ∧
      ((2 : Nat) = 0 → [2, 0xc4, 0x01, 0x80, 0x80, 0xc0] =
          rlpEncode (.list [disc, .nat g, .bytes b, logsItem lgs]))) :=
  ⟨⟨rfl, by rfl⟩, claim_C4 wC4 2 [2, 0xc4, 0x01, 0x80, 0x80, 0xc0] rfl (by rfl)⟩

/-- C8's counterexample receipt: a 1-byte log address, a 1-byte topic, a
3-byte data field and a 1-byte logs bloom — every fixed-size field has the
wrong length. -/
def cexC8 : Receipt :=
  { status := some 1, cumulativeGasUsed := some 0, logsBloom := some [0xAB],
    logs := some [⟨[0x01], [[0x02]], [0x03]⟩], type := some 0 }

/-- **C8 counterexample.** A receipt whose log address is not 20 bytes, whose
topic is not 32 bytes and whose logs bloom is not 256 bytes encodes
successfully: no length validation is performed and no error is raised,
refuting the claim. -/
theorem claim_C8_cex :
    cexC8.logsBloom = some [0xAB] ∧ ([0xAB] : List Nat).length ≠ 256 ∧
    cexC8.logs = some [⟨[0x01], [[0x02]], [0x03]⟩] ∧
    ([0x01] : List Nat).length ≠ 20 ∧ ([0x02] : List Nat).length ≠ 32 ∧
    encodeOk (Receipt.encode cexC8) = true := by
  exact ⟨rfl, by decide, rfl, by decide, by decide, by rfl⟩

/-- **C8 (amended).** `ReceiptValue.encode` performs no validation of the
fixed-size fields: for every receipt with `logs`, `status`,
`cumulativeGasUsed`, `logsBloom` and legacy `type = 0` present, encoding
succeeds and returns the RLP of whatever bytes those fields hold, whatever
the lengths of log addresses, topics or the bloom. -/
theorem claim_C8_amended : ∀ (r : Receipt) (lgs : List Log) (s g : Nat) (b : List Nat),
    r.logs = some lgs → r.status = some s → r.cumulativeGasUsed = some g →
    r.logsBloom = some b → r.type = some 0 →
    Receipt.encode r = .ok (rlpEncode (.list [.nat s, .nat g, .bytes b, logsItem lgs])) := by
  intro r lgs s g b hl hs hg hb ht
  simp [Receipt.encode, hl, hs, hg, hb, ht, getKey, exbind_ok, exbind_err, expure]

/-- Witness for `claim_C8_amended` at the wrong-length receipt. -/
theorem claim_C8_witness :
    (cexC8.logs = some [⟨[0x01], [[0x02]], [0x03]⟩] ∧ cexC8.status = some 1 ∧
      cexC8.cumulativeGasUsed = some 0 ∧ cexC8.logsBloom = some [0xAB] ∧
      cexC8.type = some 0) ∧
    Receipt.encode cexC8 = .ok (rlpEncode (.list [.nat 1, .nat 0, .bytes [0xAB],
      logsItem [⟨[0x01], [[0x02]], [0x03]⟩]])) :=
  ⟨⟨rfl, rfl, rfl, rfl, rfl⟩,
    claim_C8_amended cexC8 [⟨[0x01], [[0x02]], [0x03]⟩] 1 0 [0xAB] rfl rfl rfl rfl rfl⟩

/-- **C9.** For every receipt with a `status` field, encoding uses the
post-Byzantium form `[status, cumulativeGasUsed, logsBloom, logs]`: the
`root` field is ignored (changing it cannot change the encoding), and any
successful encoding is the status-form RLP, possibly with the raw type-byte
prefix. -/
theorem claim_C9 : ∀ (r : Receipt) (s : Nat) (rt rt' : Option (List Nat)),
    r.status = some s →
    Receipt.encode { r with root := rt } = Receipt.encode { r with root := rt' } ∧
    (∀ v, Receipt.encode r = .ok v →
      ∃ (lgs : List Log) (g : Nat) (b : List Nat) (t : Nat),
        r.logs = some lgs ∧ r.cumulativeGasUsed = some g ∧ r.logsBloom = some b ∧
        r.type = some t ∧
        (v = rlpEncode (.list [.nat s, .nat g, .bytes b, logsItem lgs]) ∨
          v = t :: rlpEncode (.list [.nat s, .nat g, .bytes b, logsItem lgs]))) := by
  intro r s rt rt' hs
  constructor
  · simp [Receipt.encode, hs]
  · intro v henc
    cases hl : r.logs with
    | none => simp [Receipt.encode, hl, getKey, exbind_ok, exbind_err, expure] at henc
    | some lgs =>
    cases hg : r.cumulativeGasUsed with
    | none => simp [Receipt.encode, hl, hs, hg, getKey, exbind_ok, exbind_err, expure] at henc
    | some g =>
    cases hb : r.logsBloom with
    | none => simp [Receipt.encode, hl, hs, hg, hb, getKey, exbind_ok, exbind_err, expure] at henc
    | some b =>
    cases ht : r.type with
    | none => simp [Receipt.encode, hl, hs, hg, hb, ht, getKey, exbind_ok, exbind_err, expure] at henc
    | some t =>
      refine ⟨lgs, g, b, t, rfl, rfl, rfl, rfl, ?_⟩
      simp [Receipt.encode, hl, hs, hg, hb, ht, getKey, exbind_ok, exbind_err, expure] at henc
      by_cases h0 : t = 0
      · simp [h0] at henc
        exact .inl henc.symm
      · simp [h0] at henc
        rcases Nat.lt_or_ge t 256 with h256 | h256
        · simp [h256] at henc
          exact .inr henc.symm
        · simp [Nat.not_lt.mpr h256] at henc

/-- C9's witness receipt: status present together with a `root` field. -/
def wC9 : Receipt :=
  { status := some 0, root := some [0xAA], cumulativeGasUsed := some 5,
    logsBloom := some [], logs := some [], type := some 0 }

/-- Witness for `claim_C9` at a concrete receipt carrying both fields. -/
theorem claim_C9_witness :
    (wC9.status = some 0) ∧
    (Receipt.encode { wC9 with root := some [0xBB] } =
        Receipt.encode { wC9 with root := none } ∧
      ∀ v, Receipt.encode wC9 = .ok v →
        ∃ (lgs : List Log) (g : Nat) (b : List Nat) (t : Nat),
          wC9.logs = some lgs ∧ wC9.cumulativeGasUsed = some g ∧
          wC9.logsBloom = some b ∧ wC9.type = some t ∧
          (v = rlpEncode (.list [.nat 0, .nat g, .bytes b, logsItem lgs]) ∨
            v = t :: rlpEncode (.list [.nat 0, .nat g, .bytes b, logsItem lgs]))) :=
  ⟨rfl, claim_C9 wC9 0 (some [0xBB]) none rfl⟩

/-- **C10.** A receipt lacking `status`, `root` and `blockNumber` fails with
a missing-key `KeyError` (the error path reads `blockNumber` to build its
message), not with the documented malformed-receipt `ValueError`; with
`logs` present the missing key is precisely `"blockNumber"`. -/
theorem claim_C10 : ∀ r : Receipt,
    r.status = none → r.root = none → r.blockNumber = none →
    (∃ k, Receipt.encode r = .error (.keyError k)) ∧
    isValueError (Receipt.encode r) = false ∧
    ∀ lgs, r.logs = some lgs → Receipt.encode r = .error (.keyError "blockNumber") := by
  intro r hs hr hb
  have hmain : ∀ lgs, r.logs = some lgs →
      Receipt.encode r = .error (.keyError "blockNumber") := by
    intro lgs hl
    simp [Receipt.encode, hl, hs, hr, hb, getKey, exbind_ok, exbind_err, expure]
  cases hl : r.logs with
  | none =>
    have hlogs : Receipt.encode r = .error (.keyError "logs") := by
      simp [Receipt.encode, hl, getKey, exbind_ok, exbind_err, expure]
    exact ⟨⟨"logs", hlogs⟩, by rw [hlogs]; rfl, fun lgs h => nomatch h⟩
  | some lgs =>
    have h := hmain lgs hl
    exact ⟨⟨"blockNumber", h⟩, by rw [h]; rfl, fun _ _ => h⟩

/-- C10's witness receipt: the empty dictionary. -/
def wC10 : Receipt := {}

/-- Witness for `claim_C10` at the empty receipt. -/
theorem claim_C10_witness :
    (wC10.status = none ∧ wC10.root = none ∧ wC10.blockNumber = none) ∧
    ((∃ k, Receipt.encode wC10 = .error (.keyError k)) ∧
      isValueError (Receipt.encode wC10) = false ∧
      ∀ lgs, wC10.logs = some lgs →
        Receipt.encode wC10 = .error (.keyError "blockNumber")) :=
  ⟨⟨rfl, rfl, rfl⟩, claim_C10 wC10 rfl rfl rfl⟩

/-- **C7.** The trie key of the value at position `i` is the RLP encoding of
the integer `i`: `compute_trie_root` pairs position `i` with
`rlp.encode(i, big_endian_int)`, which is `encode_bytes` of the minimal
big-endian byte string of `i` (its big-endian value is `i` and it has no
leading zero byte); in particular index 0 yields the single byte `0x80`,
not `0x00`. -/
theorem claim_C7 : ∀ (values : List (List Nat)) (i : Nat) (h : i < values.length),
    (insertPairs values).get ⟨i, by simpa [insertPairs] using h⟩ =
      (rlpUint i, values.get ⟨i, h⟩) ∧
    rlpUint i = encodeBytes (beBytes i) ∧
    beFromBytes (beBytes i) = i ∧
    (i ≠ 0 → beBytes i ≠ [] ∧ (beBytes i).headI ≠ 0) ∧
    rlpUint 0 = [0x80] ∧ rlpUint 0 ≠ [0x00] := by
  intro values i h
  refine ⟨?_, rfl, (beBytes_spec i).1, (beBytes_spec i).2, by rfl, by decide⟩
  simp [insertPairs, List.get_eq_getElem, List.getElem_map, List.getElem_enum]

/-- Witness for `claim_C7` at a concrete two-element value list. -/
theorem claim_C7_witness :
    (1 < ([[5], [6]] : List (List Nat)).length) ∧
    ((insertPairs [[5], [6]]).get ⟨1, by decide⟩ =
        (rlpUint 1, ([[5], [6]] : List (List Nat)).get ⟨1, by decide⟩) ∧
      rlpUint 1 = encodeBytes (beBytes 1) ∧
      beFromBytes (beBytes 1) = 1 ∧
      ((1 : Nat) ≠ 0 → beBytes 1 ≠ [] ∧ (beBytes 1).headI ≠ 0) ∧
      rlpUint 0 = [0x80] ∧ rlpUint 0 ≠ [0x00]) :=
  ⟨by decide, claim_C7 [[5], [6]] 1 (by decide)⟩

/-! ### Order independence of trie insertion (towards C5)

The root hash must be a pure function of the set of `(key, value)` pairs
(spec §3, invariants).  We prove it by relating successive insertion to a
canonical recursive construction `build` of the trie of an association list,
which is then shown to be invariant under permutation of the list. -/

/-- The keys of an association list of `(key, value)` pairs. -/
def keysOf (l : List (List Nat × List Nat)) : List (List Nat) := l.map Prod.fst

/-- Fold step for the longest common prefix of a collection of keys. -/
def lcpAcc : Option (List Nat) → List Nat → Option (List Nat)
  | none, k => some k
  | some c, k => some (lcp c k)

/-- Longest common prefix of all keys (`none` for no keys). -/
def lcpAll (ks : List (List Nat)) : Option (List Nat) := ks.foldl lcpAcc none

/-- Drop the first `n` nibbles of every key. -/
def stripAll (n : Nat) (l : List (List Nat × List Nat)) : List (List Nat × List Nat) :=
  l.map fun kv => (kv.1.drop n, kv.2)

/-- The pairs whose key starts with nibble `i`, with that nibble dropped. -/
def subAt (i : Nat) (l : List (List Nat × List Nat)) : List (List Nat × List Nat) :=
  l.filterMap fun kv =>
    match kv.1 with
    | [] => none
    | n :: tl => if n = i then some (tl, kv.2) else none

/-- First value bound to key `k` in the association list. -/
def findVal (k : List Nat) : List (List Nat × List Nat) → Option (List Nat)
  | [] => none
  | kv :: rest => if kv.1 = k then some kv.2 else findVal k rest

/-- Branch-children list built from a slot function. -/
def mkChildren (f : Nat → Node) : List Node :=
  (List.finRange 16).map fun j => f j.val

/-- Weight of an association list: one per pair plus total key length. -/
def kvSize (l : List (List Nat × List Nat)) : Nat :=
  (l.map fun kv => 1 + kv.1.length).sum

/-- Keys are nibble sequences: every element below 16. -/
def ValidKey (k : List Nat) : Prop := ∀ n ∈ k, n < 16

/-- All keys of an association list are nibble sequences. -/
def ValidKeys (l : List (List Nat × List Nat)) : Prop := ∀ kv ∈ l, ValidKey kv.1

/-- The keys of an association list are pairwise distinct. -/
def NodupKeys (l : List (List Nat × List Nat)) : Prop := (keysOf l).Nodup

/-! #### Longest-common-prefix lemmas -/

theorem lcp_nil_left (p : List Nat) : lcp [] p = [] := by cases p <;> simp [lcp]

theorem lcp_nil_right (k : List Nat) : lcp k [] = [] := by cases k <;> simp [lcp]

theorem lcp_cons_cons (a b : Nat) (as bs : List Nat) :
    lcp (a :: as) (b :: bs) = if a = b then a :: lcp as bs else [] := rfl

theorem lcp_comm : ∀ k p : List Nat, lcp k p = lcp p k := by
  intro k
  induction k with
  | nil => intro p; rw [lcp_nil_left, lcp_nil_right]
  | cons a as ih =>
    intro p
    cases p with
    | nil => rw [lcp_nil_left, lcp_nil_right]
    | cons b bs =>
      rw [lcp_cons_cons, lcp_cons_cons]
      by_cases h : a = b
      · subst h; simp [ih]
      · simp [h, Ne.symm h]

theorem lcp_assoc : ∀ a b c : List Nat, lcp (lcp a b) c = lcp a (lcp b c) := by
  intro a
  induction a with
  | nil => intro b c; simp [lcp_nil_left]
  | cons x xs ih =>
    intro b c
    cases b with
    | nil => simp [lcp_nil_right, lcp_nil_left]
    | cons y ys =>
      cases c with
      | nil => simp [lcp_nil_right]
      | cons z zs =>
        by_cases hxy : x = y
        · subst hxy
          by_cases hxz : x = z
          · subst hxz; simp [lcp_cons_cons, ih]
          · simp [lcp_cons_cons, hxz, lcp_nil_right, lcp_nil_left]
        · by_cases hyz : y = z
          · subst hyz; simp [lcp_cons_cons, hxy, lcp_nil_right, lcp_nil_left]
          · simp [lcp_cons_cons, hxy, hyz, lcp_nil_right, lcp_nil_left]

theorem lcp_prefix_left : ∀ k p : List Nat, lcp k p <+: k := by
  intro k
  induction k with
  | nil => intro p; simp [lcp_nil_left]
  | cons a as ih =>
    intro p
    cases p with
    | nil => simp [lcp_nil_right]
    | cons b bs =>
      rw [lcp_cons_cons]
      by_cases h : a = b
      · simpa [h] using ih bs
      · simp [h]

theorem lcp_prefix_right (k p : List Nat) : lcp k p <+: p := by
  rw [lcp_comm]; exact lcp_prefix_left p k

theorem lcp_of_pref : ∀ {c k : List Nat}, c <+: k → lcp c k = c := by
  intro c
  induction c with
  | nil => intro k _; exact lcp_nil_left k
  | cons a as ih =>
    intro k h
    obtain ⟨t, rfl⟩ := h
    rw [List.cons_append, lcp_cons_cons, if_pos rfl, ih (List.prefix_append as t)]

theorem lcp_self (k : List Nat) : lcp k k = k := lcp_of_pref (List.prefix_refl k)

theorem lcp_append_same : ∀ (c a b : List Nat), lcp (c ++ a) (c ++ b) = c ++ lcp a b := by
  intro c
  induction c with
  | nil => intro a b; simp
  | cons x xs ih => intro a b; simp [lcp_cons_cons, ih]

theorem lcp_ne_head {a b : Nat} {x y : List Nat} (h : a ≠ b) :
    lcp (a :: x) (b :: y) = [] := by
  simp [lcp_cons_cons, h]

/-! #### `lcpAll` lemmas -/

theorem foldl_lcpAcc_some : ∀ (ks : List (List Nat)) (a : List Nat),
    ks.foldl lcpAcc (some a) =
      some (match lcpAll ks with | none => a | some c => lcp a c) := by
  intro ks
  induction ks with
  | nil => intro a; simp [lcpAll]
  | cons k ks ih =>
    intro a
    have hstep : (k :: ks).foldl lcpAcc (some a) = ks.foldl lcpAcc (some (lcp a k)) := rfl
    have hall : lcpAll (k :: ks) = ks.foldl lcpAcc (some k) := rfl
    rw [hstep, ih (lcp a k), hall, ih k]
    cases h : lcpAll ks with
    | none => simp
    | some c => simp [lcp_assoc]

theorem lcpAll_cons (k : List Nat) (ks : List (List Nat)) :
    lcpAll (k :: ks) =
      some (match lcpAll ks with | none => k | some c => lcp k c) := by
  have : lcpAll (k :: ks) = ks.foldl lcpAcc (some k) := rfl
  rw [this, foldl_lcpAcc_some]

theorem lcpAll_nil : lcpAll [] = none := rfl

theorem lcpAll_ne_none : ∀ {ks : List (List Nat)}, ks ≠ [] → ∃ c, lcpAll ks = some c := by
  intro ks h
  cases ks with
  | nil => exact absurd rfl h
  | cons k ks => rw [lcpAll_cons]; exact ⟨_, rfl⟩

theorem lcpAll_commonPref : ∀ (ks : List (List Nat)) (c : List Nat),
    lcpAll ks = some c → ∀ k ∈ ks, c <+: k := by
  intro ks
  induction ks with
  | nil => intro c h; cases h
  | cons k ks ih =>
    intro c h k' hk'
    rw [lcpAll_cons] at h
    cases hks : lcpAll ks with
    | none =>
      have hnil : ks = [] := by
        cases ks with
        | nil => rfl
        | cons a as => rw [lcpAll_cons] at hks; cases hks
      subst hnil
      simp at hk'
      subst hk'
      rw [hks] at h
      simp at h
      subst h
      exact List.prefix_refl k'
    | some c0 =>
      rw [hks] at h
      simp at h
      subst h
      rcases List.mem_cons.mp hk' with rfl | hmem
      · exact lcp_prefix_left k' c0
      · exact (lcp_prefix_right k c0).trans (ih c0 hks k' hmem)

theorem lcpAll_map_append (c : List Nat) : ∀ ks : List (List Nat),
    lcpAll (ks.map fun k => c ++ k) = (lcpAll ks).map fun e => c ++ e := by
  intro ks
  induction ks with
  | nil => simp [lcpAll_nil]
  | cons k ks ih =>
    rw [List.map_cons, lcpAll_cons, lcpAll_cons]
    cases h : lcpAll ks with
    | none => simp [h] at ih ⊢; simp [ih]
    | some e => simp [h] at ih ⊢; simp [ih, lcp_append_same]

/-! #### Strip / sub / find / size lemmas -/

theorem keysOf_cons (kv : List Nat × List Nat) (l : List (List Nat × List Nat)) :
    keysOf (kv :: l) = kv.1 :: keysOf l := rfl

theorem keysOf_stripAll (n : Nat) (l : List (List Nat × List Nat)) :
    keysOf (stripAll n l) = (keysOf l).map fun k => k.drop n := by
  simp [keysOf, stripAll]

theorem stripAll_cons (n : Nat) (kv : List Nat × List Nat) (l : List (List Nat × List Nat)) :
    stripAll n (kv :: l) = (kv.1.drop n, kv.2) :: stripAll n l := rfl

theorem stripAll_stripAll (a b : Nat) (l : List (List Nat × List Nat)) :
    stripAll a (stripAll b l) = stripAll (a + b) l := by
  simp only [stripAll, List.map_map]
  apply List.map_congr_left
  intro kv _
  simp [Function.comp, List.drop_drop, Nat.add_comm]

theorem strip_decomp {ks : List (List Nat)} {c : List Nat} (h : ∀ k ∈ ks, c <+: k) :
    ks.map (fun k => c ++ k.drop c.length) = ks := by
  conv_rhs => rw [show ks = ks.map id from (List.map_id ks).symm]
  apply List.map_congr_left
  intro k hk
  obtain ⟨t, rfl⟩ := h k hk
  simp

theorem lcpAll_strip_full {ks : List (List Nat)} {c : List Nat} (h : lcpAll ks = some c) :
    lcpAll (ks.map fun k => k.drop c.length) = some [] := by
  have hpre := lcpAll_commonPref ks c h
  have hks : ks ≠ [] := by rintro rfl; simp [lcpAll_nil] at h
  have hmap : (ks.map fun k => k.drop c.length) ≠ [] := by simpa using hks
  obtain ⟨e, he⟩ := lcpAll_ne_none hmap
  have h2 : lcpAll ((ks.map fun k => k.drop c.length).map fun k => c ++ k) =
      some (c ++ e) := by
    rw [lcpAll_map_append, he]
    rfl
  rw [List.map_map] at h2
  have h3 : (ks.map fun k => c ++ k.drop c.length) = ks := strip_decomp hpre
  rw [show ((fun k => c ++ k) ∘ fun k : List Nat => k.drop c.length) =
      fun k : List Nat => c ++ k.drop c.length from rfl, h3, h] at h2
  have h4 : c = c ++ e := by injection h2
  have h5 : e = [] := by
    have hlen := congrArg List.length h4
    simp at hlen
    exact hlen
  rw [he, h5]

theorem lcpAll_strip_partial {ks : List (List Nat)} {c d : List Nat}
    (h : lcpAll ks = some c) (hd : d <+: c) :
    lcpAll (ks.map fun k => k.drop d.length) = some (c.drop d.length) := by
  have hpre := lcpAll_commonPref ks c h
  have hks : ks ≠ [] := by rintro rfl; simp [lcpAll_nil] at h
  have hmap : (ks.map fun k => k.drop d.length) ≠ [] := by simpa using hks
  obtain ⟨e, he⟩ := lcpAll_ne_none hmap
  have h2 : lcpAll ((ks.map fun k => k.drop d.length).map fun k => d ++ k) =
      some (d ++ e) := by
    rw [lcpAll_map_append, he]
    rfl
  rw [List.map_map] at h2
  have h3 : (ks.map fun k => d ++ k.drop d.length) = ks :=
    strip_decomp fun k hk => hd.trans (hpre k hk)
  rw [show ((fun k => d ++ k) ∘ fun k : List Nat => k.drop d.length) =
      fun k : List Nat => d ++ k.drop d.length from rfl, h3, h] at h2
  have h4 : c = d ++ e := by injection h2
  rw [he]
  rw [h4]
  simp

theorem subAt_cons_nilkey (i : Nat) (v : List Nat) (l : List (List Nat × List Nat)) :
    subAt i (([], v) :: l) = subAt i l := by
  simp [subAt]

theorem subAt_cons (i n : Nat) (tl v : List Nat) (l : List (List Nat × List Nat)) :
    subAt i ((n :: tl, v) :: l) =
      if n = i then (tl, v) :: subAt i l else subAt i l := by
  by_cases h : n = i <;> simp [subAt, h]

theorem subAt_eq_strip_of_all_head {n : Nat} :
    ∀ {l : List (List Nat × List Nat)}, (∀ kv ∈ l, ∃ tl, kv.1 = n :: tl) →
    subAt n l = stripAll 1 l := by
  intro l
  induction l with
  | nil => intro _; rfl
  | cons kv rest ih =>
    intro h
    obtain ⟨tl, htl⟩ := h kv (List.mem_cons_self kv rest)
    obtain ⟨k, v⟩ := kv
    simp only at htl
    subst htl
    rw [subAt_cons, if_pos rfl, stripAll_cons]
    simp only [List.drop_succ_cons, List.drop_zero]
    rw [ih fun kv hkv => h kv (List.mem_cons_of_mem _ hkv)]

theorem subAt_eq_nil_of_all_head {n i : Nat} (hne : n ≠ i) :
    ∀ {l : List (List Nat × List Nat)}, (∀ kv ∈ l, ∃ tl, kv.1 = n :: tl) →
    subAt i l = [] := by
  intro l
  induction l with
  | nil => intro _; rfl
  | cons kv rest ih =>
    intro h
    obtain ⟨tl, htl⟩ := h kv (List.mem_cons_self kv rest)
    obtain ⟨k, v⟩ := kv
    simp only at htl
    subst htl
    rw [subAt_cons, if_neg hne]
    exact ih fun kv hkv => h kv (List.mem_cons_of_mem _ hkv)

theorem findVal_cons (k : List Nat) (kv : List Nat × List Nat)
    (l : List (List Nat × List Nat)) :
    findVal k (kv :: l) = if kv.1 = k then some kv.2 else findVal k l := rfl

theorem findVal_nil_of_keys_ne_nil :
    ∀ {l : List (List Nat × List Nat)}, (∀ kv ∈ l, kv.1 ≠ []) →
    findVal [] l = none := by
  intro l
  induction l with
  | nil => intro _; rfl
  | cons kv rest ih =>
    intro h
    rw [findVal_cons, if_neg (h kv (List.mem_cons_self kv rest))]
    exact ih fun kv hkv => h kv (List.mem_cons_of_mem _ hkv)

theorem kvSize_cons (kv : List Nat × List Nat) (l : List (List Nat × List Nat)) :
    kvSize (kv :: l) = 1 + kv.1.length + kvSize l := by
  simp [kvSize]

theorem kvSize_subAt_le (i : Nat) :
    ∀ l : List (List Nat × List Nat), kvSize (subAt i l) + l.length ≤ kvSize l := by
  intro l
  induction l with
  | nil => simp [subAt, kvSize]
  | cons kv rest ih =>
    obtain ⟨k, v⟩ := kv
    cases k with
    | nil =>
      rw [subAt_cons_nilkey, kvSize_cons]
      simp only [List.length_cons]
      omega
    | cons n tl =>
      rw [subAt_cons, kvSize_cons]
      by_cases h : n = i
      · rw [if_pos h, kvSize_cons]
        simp only [List.length_cons]
        omega
      · rw [if_neg h]
        simp only [List.length_cons]
        omega

theorem kvSize_stripAll_le (d : Nat) :
    ∀ l : List (List Nat × List Nat), kvSize (stripAll d l) ≤ kvSize l := by
  intro l
  induction l with
  | nil => simp [stripAll, kvSize]
  | cons kv rest ih =>
    rw [stripAll_cons, kvSize_cons, kvSize_cons]
    simp only [List.length_drop]
    have h1 : kv.1.length - d ≤ kv.1.length := Nat.sub_le _ _
    omega

theorem kvSize_stripAll_lt {d : Nat} (hd : 0 < d) (kv : List Nat × List Nat)
    (l : List (List Nat × List Nat)) (hk : 0 < kv.1.length) :
    kvSize (stripAll d (kv :: l)) < kvSize (kv :: l) := by
  rw [stripAll_cons, kvSize_cons, kvSize_cons]
  simp only [List.length_drop]
  have h2 := kvSize_stripAll_le d l
  omega

/-! #### The canonical trie of an association list -/

/-- The canonical Merkle-Patricia trie of an association list of
`(nibble-key, value)` pairs: empty, a leaf for a single pair, otherwise an
extension over the longest common prefix of all keys when it is nonempty,
else a branch dispatching on the first nibble (an empty key populates the
branch's value slot). -/
def build : List (List Nat × List Nat) → Node
  | [] => .empty
  | [kv] => .leaf kv.1 kv.2
  | q1 :: q2 :: qs =>
    if (lcpAll (keysOf (q1 :: q2 :: qs))).getD [] = [] then
      .branch (mkChildren fun i => build (subAt i (q1 :: q2 :: qs)))
        (findVal [] (q1 :: q2 :: qs))
    else
      .ext ((lcpAll (keysOf (q1 :: q2 :: qs))).getD [])
        (build (stripAll ((lcpAll (keysOf (q1 :: q2 :: qs))).getD []).length
          (q1 :: q2 :: qs)))
termination_by l => kvSize l
decreasing_by
  · have h := kvSize_subAt_le i (q1 :: q2 :: qs)
    have h2 : (q1 :: q2 :: qs).length = qs.length + 2 := by simp
    omega
  · rename_i hc
    obtain ⟨c, hsome⟩ := lcpAll_ne_none
      (show keysOf (q1 :: q2 :: qs) ≠ [] by simp [keysOf])
    rw [hsome] at hc ⊢
    simp only [Option.getD_some] at hc ⊢
    have hpre : c <+: q1.1 :=
      lcpAll_commonPref _ c hsome q1.1 (by rw [keysOf_cons]; exact List.mem_cons_self _ _)
    apply kvSize_stripAll_lt
    · have := List.length_pos.mpr hc
      omega
    · have hlen := hpre.length_le
      have : 0 < c.length := List.length_pos.mpr hc
      omega

theorem build_nil : build [] = .empty := by simp [build]

theorem build_single (kv : List Nat × List Nat) : build [kv] = .leaf kv.1 kv.2 := by
  simp [build]

theorem build_branch {q1 q2 : List Nat × List Nat} {qs : List (List Nat × List Nat)}
    (h : lcpAll (keysOf (q1 :: q2 :: qs)) = some []) :
    build (q1 :: q2 :: qs) =
      .branch (mkChildren fun i => build (subAt i (q1 :: q2 :: qs)))
        (findVal [] (q1 :: q2 :: qs)) := by
  rw [build, h]
  simp

theorem build_ext {q1 q2 : List Nat × List Nat} {qs : List (List Nat × List Nat)}
    {c : List Nat} (h : lcpAll (keysOf (q1 :: q2 :: qs)) = some c) (hc : c ≠ []) :
    build (q1 :: q2 :: qs) = .ext c (build (stripAll c.length (q1 :: q2 :: qs))) := by
  rw [build, h]
  simp [hc]

/-! #### Permutation invariance of `build` -/

theorem nodupKeys_cons {kv : List Nat × List Nat} {l : List (List Nat × List Nat)} :
    NodupKeys (kv :: l) ↔ kv.1 ∉ keysOf l ∧ NodupKeys l := by
  simp [NodupKeys, keysOf_cons]

theorem nodupKeys_perm {l1 l2 : List (List Nat × List Nat)} (hp : l1.Perm l2)
    (h : NodupKeys l1) : NodupKeys l2 := ((hp.map Prod.fst).nodup_iff).mp h

theorem lcpAll_perm {ks1 ks2 : List (List Nat)} (hp : ks1.Perm ks2) :
    lcpAll ks1 = lcpAll ks2 := by
  induction hp with
  | nil => rfl
  | cons x hp ih =>
    rw [lcpAll_cons, lcpAll_cons, ih]
  | swap x y t =>
    rw [lcpAll_cons, lcpAll_cons, lcpAll_cons, lcpAll_cons]
    cases h : lcpAll t with
    | none => simp [lcp_comm]
    | some c =>
      simp only
      rw [← lcp_assoc, ← lcp_assoc, lcp_comm y x]
  | trans h1 h2 ih1 ih2 => rw [ih1, ih2]

theorem findVal_perm {k : List Nat} : ∀ {l1 l2 : List (List Nat × List Nat)},
    l1.Perm l2 → NodupKeys l1 → findVal k l1 = findVal k l2 := by
  intro l1 l2 hp
  induction hp with
  | nil => intro _; rfl
  | cons x hp ih =>
    intro hnd
    rw [findVal_cons, findVal_cons, ih (nodupKeys_cons.mp hnd).2]
  | swap x y t =>
    intro hnd
    have hxy : y.1 ≠ x.1 := by
      have h1 := (nodupKeys_cons.mp hnd).1
      rw [keysOf_cons] at h1
      simp at h1
      exact h1.1
    by_cases h1 : y.1 = k
    · by_cases h2 : x.1 = k
      · exact absurd (h1.trans h2.symm) hxy
      · simp [findVal_cons, h1, h2]
    · simp [findVal_cons, h1]
  | trans h1 h2 ih1 ih2 =>
    intro hnd
    rw [ih1 hnd, ih2 (nodupKeys_perm h1 hnd)]

theorem mem_keysOf_subAt {i : Nat} {k : List Nat} :
    ∀ {l : List (List Nat × List Nat)}, k ∈ keysOf (subAt i l) →
      (i :: k) ∈ keysOf l := by
  intro l
  induction l with
  | nil => intro h; cases h
  | cons kv rest ih =>
    obtain ⟨kk, v⟩ := kv
    intro h
    cases kk with
    | nil =>
      rw [subAt_cons_nilkey] at h
      exact List.mem_cons_of_mem _ (ih h)
    | cons n tl =>
      rw [subAt_cons] at h
      by_cases hn : n = i
      · rw [if_pos hn] at h
        rw [keysOf_cons] at h
        rcases List.mem_cons.mp h with rfl | hm
        · subst hn
          exact List.mem_cons_self _ _
        · exact List.mem_cons_of_mem _ (ih hm)
      · rw [if_neg hn] at h
        exact List.mem_cons_of_mem _ (ih h)

theorem nodupKeys_subAt (i : Nat) :
    ∀ {l : List (List Nat × List Nat)}, NodupKeys l → NodupKeys (subAt i l) := by
  intro l
  induction l with
  | nil => intro _; exact List.nodup_nil
  | cons kv rest ih =>
    obtain ⟨kk, v⟩ := kv
    intro hnd
    obtain ⟨hout, htail⟩ := nodupKeys_cons.mp hnd
    cases kk with
    | nil =>
      rw [subAt_cons_nilkey]
      exact ih htail
    | cons n tl =>
      rw [subAt_cons]
      by_cases hn : n = i
      · rw [if_pos hn]
        rw [nodupKeys_cons]
        refine ⟨?_, ih htail⟩
        intro hmem
        exact hout (by simpa [hn] using mem_keysOf_subAt hmem)
      · rw [if_neg hn]
        exact ih htail

theorem nodupKeys_stripAll {l : List (List Nat × List Nat)} {c : List Nat}
    (hpre : ∀ k ∈ keysOf l, c <+: k) (hnd : NodupKeys l) :
    NodupKeys (stripAll c.length l) := by
  rw [NodupKeys, keysOf_stripAll]
  apply List.Nodup.map_on ?_ hnd
  intro x hx y hy hxy
  obtain ⟨tx, hxe⟩ := hpre x hx
  obtain ⟨ty, hye⟩ := hpre y hy
  rw [← hxe, ← hye] at hxy ⊢
  rw [List.drop_left, List.drop_left] at hxy
  rw [hxy]

theorem mkChildren_congr {f g : Nat → Node} (h : ∀ i < 16, f i = g i) :
    mkChildren f = mkChildren g := by
  apply List.map_congr_left
  intro j _
  exact h j.val j.isLt

theorem build_perm_aux : ∀ (n : Nat) (l1 l2 : List (List Nat × List Nat)),
    kvSize l1 ≤ n → l1.Perm l2 → NodupKeys l1 → build l1 = build l2 := by
  intro n
  induction n with
  | zero =>
    intro l1 l2 hsize hp _
    have h1 : l1 = [] := by
      cases l1 with
      | nil => rfl
      | cons kv rest => rw [kvSize_cons] at hsize; omega
    subst h1
    rw [List.nil_perm.mp hp]
  | succ n ih =>
    intro l1 l2 hsize hp hnd
    match l1, hp with
    | [], hp => rw [List.nil_perm.mp hp]
    | [kv], hp => rw [List.singleton_perm.mp hp]
    | q1 :: q2 :: qs, hp =>
      have hlen2 : 2 ≤ l2.length := by
        have := hp.length_eq
        simp at this
        omega
      match l2, hlen2 with
      | r1 :: r2 :: rs, _ =>
        have hkeys : (keysOf (q1 :: q2 :: qs)).Perm (keysOf (r1 :: r2 :: rs)) :=
          hp.map Prod.fst
        have hall : lcpAll (keysOf (q1 :: q2 :: qs)) =
            lcpAll (keysOf (r1 :: r2 :: rs)) := lcpAll_perm hkeys
        obtain ⟨c, hc⟩ := lcpAll_ne_none
          (show keysOf (q1 :: q2 :: qs) ≠ [] by simp [keysOf])
        have hc2 : lcpAll (keysOf (r1 :: r2 :: rs)) = some c := by rw [← hall, hc]
        by_cases hnil : c = []
        · subst hnil
          rw [build_branch hc, build_branch hc2]
          congr 1
          · apply mkChildren_congr
            intro i _
            have hsub : kvSize (subAt i (q1 :: q2 :: qs)) ≤ n := by
              have h1 := kvSize_subAt_le i (q1 :: q2 :: qs)
              simp only [List.length_cons] at h1
              omega
            exact ih _ _ hsub (hp.filterMap _) (nodupKeys_subAt i hnd)
          · exact findVal_perm hp hnd
        · rw [build_ext hc hnil, build_ext hc2 hnil]
          congr 1
          have hstrip : kvSize (stripAll c.length (q1 :: q2 :: qs)) ≤ n := by
            have h1 : kvSize (stripAll c.length (q1 :: q2 :: qs)) <
                kvSize (q1 :: q2 :: qs) := by
              apply kvSize_stripAll_lt (List.length_pos.mpr hnil)
              have hpre : c <+: q1.1 := lcpAll_commonPref _ c hc q1.1
                (by rw [keysOf_cons]; exact List.mem_cons_self _ _)
              have := hpre.length_le
              have := List.length_pos.mpr hnil
              omega
            omega
          refine ih _ _ hstrip (hp.map _) ?_
          exact nodupKeys_stripAll (lcpAll_commonPref _ c hc) hnd

theorem build_perm {l1 l2 : List (List Nat × List Nat)} (hp : l1.Perm l2)
    (hnd : NodupKeys l1) : build l1 = build l2 :=
  build_perm_aux (kvSize l1) l1 l2 le_rfl hp hnd

/-! #### Unfolding lemmas for `insert` and branch-children helpers -/

/-- The branch node a leaf split leaves behind for the old path remainder. -/
def splitNode (rem : List Nat) (w : List Nat) : Node :=
  match rem with
  | [] => .branch emptyChildren (some w)
  | n :: tl => .branch (emptyChildren.set n (.leaf tl w)) none

/-- The branch node an extension split leaves behind for the old path
remainder and child. -/
def splitNodeExt (rem : List Nat) (child : Node) : Node :=
  match rem with
  | [] => .branch emptyChildren none
  | n :: tl => .branch (emptyChildren.set n (extWrap tl child)) none

theorem splitNode_nil (w : List Nat) : splitNode [] w = .branch emptyChildren (some w) := rfl

theorem splitNode_cons (n : Nat) (tl w : List Nat) :
    splitNode (n :: tl) w = .branch (emptyChildren.set n (.leaf tl w)) none := rfl

theorem splitNodeExt_cons (n : Nat) (tl : List Nat) (child : Node) :
    splitNodeExt (n :: tl) child = .branch (emptyChildren.set n (extWrap tl child)) none := rfl

theorem extWrap_nil (t : Node) : extWrap [] t = t := by simp [extWrap]

theorem extWrap_ne {p : List Nat} (h : p ≠ []) (t : Node) : extWrap p t = .ext p t := by
  simp [extWrap, h]

theorem insert_leaf (p w k v : List Nat) :
    insert (.leaf p w) k v =
      if k = p then .leaf p v
      else extWrap (lcp k p)
        (placeLeaf (splitNode (p.drop (lcp k p).length) w) (k.drop (lcp k p).length) v) := by
  rw [insert]
  rfl

theorem insert_ext_full {p k : List Nat} (child : Node) (v : List Nat)
    (h : (lcp k p).length = p.length) :
    insert (.ext p child) k v = .ext p (insert child (k.drop p.length) v) := by
  rw [insert, if_pos h]

theorem insert_ext_split {p k : List Nat} (child : Node) (v : List Nat)
    (h : (lcp k p).length ≠ p.length) :
    insert (.ext p child) k v =
      extWrap (lcp k p)
        (placeLeaf (splitNodeExt (p.drop (lcp k p).length) child)
          (k.drop (lcp k p).length) v) := by
  rw [insert, if_neg h]
  rfl

theorem insert_branch_nil (cs : List Node) (bv : Option (List Nat)) (v : List Nat) :
    insert (.branch cs bv) [] v = .branch cs (some v) := by
  rw [insert]

theorem insert_branch_cons (cs : List Node) (bv : Option (List Nat)) (n : Nat)
    (tl v : List Nat) :
    insert (.branch cs bv) (n :: tl) v =
      .branch (cs.set n (insert (cs.getD n .empty) tl v)) bv := by
  rw [insert]

theorem mkChildren_length (f : Nat → Node) : (mkChildren f).length = 16 := by
  simp [mkChildren]

theorem mkChildren_getElem (f : Nat → Node) (i : Nat) (h : i < (mkChildren f).length) :
    (mkChildren f)[i] = f i := by
  simp [mkChildren]

theorem mkChildren_getD {f : Nat → Node} {n : Nat} (h : n < 16) :
    (mkChildren f).getD n .empty = f n := by
  rw [List.getD_eq_getElem _ _ (by rw [mkChildren_length]; exact h)]
  exact mkChildren_getElem f n (by rw [mkChildren_length]; exact h)

theorem mkChildren_set {f : Nat → Node} {n : Nat} (x : Node) (h : n < 16) :
    (mkChildren f).set n x = mkChildren fun i => if i = n then x else f i := by
  apply List.ext_getElem
  · simp [mkChildren_length]
  · intro i h1 h2
    rw [List.getElem_set, mkChildren_getElem _ i h2]
    by_cases hin : n = i
    · subst hin
      simp
    · rw [if_neg hin, if_neg fun hh => hin hh.symm]
      exact mkChildren_getElem f i (by rw [mkChildren_length]; simpa [mkChildren_length] using h2)

theorem emptyChildren_eq : emptyChildren = mkChildren fun _ => .empty := by
  apply List.ext_getElem
  · simp [mkChildren_length, emptyChildren]
  · intro i h1 h2
    rw [mkChildren_getElem _ i h2]
    simp only [emptyChildren, List.getElem_replicate]

theorem placeLeaf_nil (cs : List Node) (bv : Option (List Nat)) (val : List Nat) :
    placeLeaf (.branch cs bv) [] val = .branch cs (some val) := rfl

theorem placeLeaf_cons (cs : List Node) (bv : Option (List Nat)) (n : Nat)
    (tl val : List Nat) :
    placeLeaf (.branch cs bv) (n :: tl) val = .branch (cs.set n (.leaf tl val)) bv := rfl

theorem subAt_nil (i : Nat) : subAt i [] = [] := rfl

theorem keysOf_nil : keysOf ([] : List (List Nat × List Nat)) = [] := rfl

/-- `build` of exactly two pairs with immediately diverging keys is the
branch node the leaf split of `insert` constructs. -/
theorem build_pair_nil {k p v w : List Nat} (hne : k ≠ p) (hlcp : lcp k p = [])
    (hvk : ValidKey k) (hvp : ValidKey p) :
    build [(k, v), (p, w)] = placeLeaf (splitNode p w) k v := by
  have hall : lcpAll (keysOf [(k, v), (p, w)]) = some [] := by
    rw [keysOf_cons, keysOf_cons, keysOf_nil, lcpAll_cons, lcpAll_cons]
    simp [lcpAll_nil, hlcp]
  rw [build_branch hall]
  cases p with
  | nil =>
    cases k with
    | nil => exact absurd rfl hne
    | cons a kt =>
      have ha : a < 16 := hvk a (List.mem_cons_self _ _)
      rw [splitNode_nil, placeLeaf_cons]
      have hch : (mkChildren fun i => build (subAt i [(a :: kt, v), ([], w)])) =
          emptyChildren.set a (.leaf kt v) := by
        rw [emptyChildren_eq, mkChildren_set _ ha]
        apply mkChildren_congr
        intro i hi
        rw [subAt_cons, subAt_cons_nilkey, subAt_nil]
        by_cases hia : i = a
        · subst hia
          rw [if_pos rfl, if_pos rfl, build_single]
        · rw [if_neg fun hh => hia hh.symm, if_neg hia, build_nil]
      have hv : findVal [] [(a :: kt, v), ([], w)] = some w := by
        rw [findVal_cons, if_neg (by simp), findVal_cons, if_pos rfl]
      rw [hch, hv]
  | cons b pt =>
    have hb : b < 16 := hvp b (List.mem_cons_self _ _)
    rw [splitNode_cons]
    cases k with
    | nil =>
      rw [placeLeaf_nil]
      have hch : (mkChildren fun i => build (subAt i [([], v), (b :: pt, w)])) =
          emptyChildren.set b (.leaf pt w) := by
        rw [emptyChildren_eq, mkChildren_set _ hb]
        apply mkChildren_congr
        intro i hi
        rw [subAt_cons_nilkey, subAt_cons, subAt_nil]
        by_cases hib : i = b
        · subst hib
          rw [if_pos rfl, if_pos rfl, build_single]
        · rw [if_neg fun hh => hib hh.symm, if_neg hib, build_nil]
      have hv : findVal [] [(([] : List Nat), v), (b :: pt, w)] = some v := by
        rw [findVal_cons, if_pos rfl]
      rw [hch, hv]
    | cons a kt =>
      have ha : a < 16 := hvk a (List.mem_cons_self _ _)
      have hab : a ≠ b := by
        intro hh
        subst hh
        rw [lcp_cons_cons, if_pos rfl] at hlcp
        cases hlcp
      rw [placeLeaf_cons]
      have hch : (mkChildren fun i => build (subAt i [(a :: kt, v), (b :: pt, w)])) =
          (emptyChildren.set b (.leaf pt w)).set a (.leaf kt v) := by
        rw [emptyChildren_eq, mkChildren_set _ hb, mkChildren_set _ ha]
        apply mkChildren_congr
        intro i hi
        rw [subAt_cons, subAt_cons, subAt_nil]
        by_cases hia : i = a
        · subst hia
          rw [if_pos rfl, if_pos rfl, if_neg fun hh => hab hh.symm, build_single]
        · by_cases hib : i = b
          · subst hib
            rw [if_neg fun hh => hia hh.symm, if_neg hia, if_pos rfl, if_pos rfl,
              build_single]
          · rw [if_neg fun hh => hia hh.symm, if_neg hia,
              if_neg fun hh => hib hh.symm, if_neg hib, build_nil]
      have hv : findVal [] [(a :: kt, v), (b :: pt, w)] = none := by
        rw [findVal_cons, if_neg (by simp), findVal_cons, if_neg (by simp)]
        rfl
      rw [hch, hv]

/-- `build` of two pairs, general form, matching the leaf split of `insert`. -/
theorem build_pair {k p v w : List Nat} (hne : k ≠ p) (hvk : ValidKey k)
    (hvp : ValidKey p) :
    build [(k, v), (p, w)] =
      extWrap (lcp k p)
        (placeLeaf (splitNode (p.drop (lcp k p).length) w) (k.drop (lcp k p).length) v) := by
  by_cases hc : lcp k p = []
  · rw [hc, extWrap_nil]
    simp only [List.length_nil, List.drop_zero]
    exact build_pair_nil hne hc hvk hvp
  · have hpl := lcp_prefix_left k p
    have hpr := lcp_prefix_right k p
    have hall : lcpAll (keysOf [(k, v), (p, w)]) = some (lcp k p) := by
      rw [keysOf_cons, keysOf_cons, keysOf_nil, lcpAll_cons, lcpAll_cons]
      simp [lcpAll_nil]
    set c := lcp k p with hcdef
    obtain ⟨k2, hk⟩ := hpl
    obtain ⟨p2, hp⟩ := hpr
    have hdk : k.drop c.length = k2 := by rw [← hk, List.drop_left]
    have hdp : p.drop c.length = p2 := by rw [← hp, List.drop_left]
    have hstrip : stripAll c.length [(k, v), (p, w)] = [(k2, v), (p2, w)] := by
      simp only [stripAll, List.map_cons, List.map_nil]
      rw [hdk, hdp]
    have hk2p2 : lcp k2 p2 = [] := by
      have happ : lcp (c ++ k2) (c ++ p2) = c ++ lcp k2 p2 := lcp_append_same _ _ _
      rw [hk, hp, ← hcdef] at happ
      have h2 : c ++ ([] : List Nat) = c ++ lcp k2 p2 := by
        rw [List.append_nil]
        exact happ
      exact (List.append_cancel_left h2).symm
    have hne2 : k2 ≠ p2 := by
      intro hh
      exact hne (by rw [← hk, ← hp, hh])
    have hvk2 : ValidKey k2 := fun n hn => hvk n (by rw [← hk]; exact List.mem_append_right _ hn)
    have hvp2 : ValidKey p2 := fun n hn => hvp n (by rw [← hp]; exact List.mem_append_right _ hn)
    rw [build_ext hall hc, hstrip, build_pair_nil hne2 hk2p2 hvk2 hvp2,
      extWrap_ne hc, hdk, hdp]

theorem build_ext' {l : List (List Nat × List Nat)} {c : List Nat}
    (hlen : 2 ≤ l.length) (h : lcpAll (keysOf l) = some c) (hc : c ≠ []) :
    build l = .ext c (build (stripAll c.length l)) := by
  match l, hlen with
  | q1 :: q2 :: qs, _ => exact build_ext h hc

theorem build_branch' {l : List (List Nat × List Nat)}
    (hlen : 2 ≤ l.length) (h : lcpAll (keysOf l) = some []) :
    build l = .branch (mkChildren fun i => build (subAt i l)) (findVal [] l) := by
  match l, hlen with
  | q1 :: q2 :: qs, _ => exact build_branch h

theorem build_single' (k v : List Nat) : build [(k, v)] = .leaf k v := build_single (k, v)

theorem validKeys_subAt (i : Nat) {l : List (List Nat × List Nat)}
    (h : ValidKeys l) : ValidKeys (subAt i l) := by
  intro kv hkv
  obtain ⟨kv0, hkv0, hf⟩ := List.mem_filterMap.mp hkv
  cases h0 : kv0.1 with
  | nil => rw [h0] at hf; cases hf
  | cons n tl =>
    rw [h0] at hf
    dsimp only at hf
    by_cases hn : n = i
    · rw [if_pos hn] at hf
      injection hf with hf2
      subst hf2
      intro x hx
      exact h kv0 hkv0 x (by rw [h0]; exact List.mem_cons_of_mem _ hx)
    · rw [if_neg hn] at hf
      cases hf

theorem validKeys_stripAll (d : Nat) {l : List (List Nat × List Nat)}
    (h : ValidKeys l) : ValidKeys (stripAll d l) := by
  intro kv hkv
  obtain ⟨kv0, hkv0, hf⟩ := List.mem_map.mp hkv
  subst hf
  intro x hx
  exact h kv0 hkv0 x (List.drop_subset d kv0.1 hx)

theorem validKeys_cons {kv : List Nat × List Nat} {l : List (List Nat × List Nat)} :
    ValidKeys (kv :: l) ↔ ValidKey kv.1 ∧ ValidKeys l := by
  constructor
  · intro h
    exact ⟨h kv (List.mem_cons_self _ _), fun kv2 h2 => h kv2 (List.mem_cons_of_mem _ h2)⟩
  · intro h kv2 h2
    rcases List.mem_cons.mp h2 with rfl | h3
    · exact h.1
    · exact h.2 kv2 h3

/-- Inserting a key that diverges immediately from the (nonempty) common
prefix of a collection of at least two pairs produces exactly the branch
node of the corresponding extension split. -/
theorem build_cons_diverge {l : List (List Nat × List Nat)} {c k2 v : List Nat}
    (hlen : 2 ≤ l.length) (hall : lcpAll (keysOf l) = some c) (hc : c ≠ [])
    (hdiv : lcp k2 c = []) (hvk : ValidKey k2) (hvl : ValidKeys l) :
    build ((k2, v) :: l) =
      placeLeaf (.branch (emptyChildren.set c.headI
        (extWrap c.tail (build (stripAll c.length l)))) none) k2 v := by
  obtain ⟨n, ct, rfl⟩ : ∃ n ct, c = n :: ct := by
    cases c with
    | nil => exact absurd rfl hc
    | cons n ct => exact ⟨n, ct, rfl⟩
  obtain ⟨q1, l', rfl⟩ : ∃ q1 l', l = q1 :: l' := by
    cases l with
    | nil => simp at hlen
    | cons q1 l' => exact ⟨q1, l', rfl⟩
  simp only [List.headI_cons, List.tail_cons]
  have hq1 : (n :: ct) <+: q1.1 :=
    lcpAll_commonPref _ _ hall q1.1 (by rw [keysOf_cons]; exact List.mem_cons_self _ _)
  have hn : n < 16 := by
    obtain ⟨t, ht⟩ := hq1
    exact hvl q1 (List.mem_cons_self _ _) n (by rw [← ht]; exact List.mem_cons_self _ _)
  have hheads : ∀ kv ∈ q1 :: l', ∃ tl, kv.1 = n :: tl := by
    intro kv hkv
    obtain ⟨t, ht⟩ := lcpAll_commonPref _ _ hall kv.1 (List.mem_map_of_mem Prod.fst hkv)
    exact ⟨ct ++ t, by rw [← ht]; simp⟩
  have hall0 : lcpAll (keysOf ((k2, v) :: q1 :: l')) = some [] := by
    rw [keysOf_cons, lcpAll_cons, hall]
    simp [hdiv]
  have hlen0 : 2 ≤ ((k2, v) :: q1 :: l').length := by simp
  rw [build_branch' hlen0 hall0]
  -- the n-slot child
  have hsubn : build (subAt n (q1 :: l')) =
      extWrap ct (build (stripAll (n :: ct).length (q1 :: l'))) := by
    rw [subAt_eq_strip_of_all_head hheads]
    have hstrip1 : lcpAll (keysOf (stripAll 1 (q1 :: l'))) = some ct := by
      rw [keysOf_stripAll]
      have := lcpAll_strip_partial hall (d := [n]) ⟨ct, rfl⟩
      simpa using this
    cases hct : ct with
    | nil =>
      rw [extWrap_nil]
      subst hct
      rfl
    | cons m cm =>
      subst hct
      have hlen1 : 2 ≤ (stripAll 1 (q1 :: l')).length := by
        simp [stripAll]
        simpa using hlen
      rw [build_ext' hlen1 hstrip1 (by simp), extWrap_ne (by simp), stripAll_stripAll]
      simp [List.length_cons]
  -- assemble by cases on the new key
  cases k2 with
  | nil =>
    rw [placeLeaf_nil]
    have hch : (mkChildren fun i => build (subAt i ((([] : List Nat), v) :: q1 :: l'))) =
        emptyChildren.set n (extWrap ct (build (stripAll (n :: ct).length (q1 :: l')))) := by
      rw [emptyChildren_eq, mkChildren_set _ hn]
      apply mkChildren_congr
      intro i hi
      rw [subAt_cons_nilkey]
      by_cases hin : i = n
      · subst hin
        rw [if_pos rfl]
        exact hsubn
      · rw [if_neg hin, subAt_eq_nil_of_all_head (fun hh => hin hh.symm) hheads, build_nil]
    have hv : findVal [] ((([] : List Nat), v) :: q1 :: l') = some v := by
      rw [findVal_cons, if_pos rfl]
    rw [hch, hv]
  | cons a kt =>
    have ha : a < 16 := hvk a (List.mem_cons_self _ _)
    have han : a ≠ n := by
      intro hh
      subst hh
      rw [lcp_cons_cons, if_pos rfl] at hdiv
      cases hdiv
    rw [placeLeaf_cons]
    have hch : (mkChildren fun i => build (subAt i ((a :: kt, v) :: q1 :: l'))) =
        (emptyChildren.set n
          (extWrap ct (build (stripAll (n :: ct).length (q1 :: l'))))).set a
          (.leaf kt v) := by
      rw [emptyChildren_eq, mkChildren_set _ hn, mkChildren_set _ ha]
      apply mkChildren_congr
      intro i hi
      rw [subAt_cons]
      by_cases hia : i = a
      · subst hia
        rw [if_pos rfl, if_pos rfl,
          subAt_eq_nil_of_all_head (fun hh => han hh.symm) hheads, build_single]
      · rw [if_neg fun hh => hia hh.symm, if_neg hia]
        by_cases hin : i = n
        · subst hin
          rw [if_pos rfl]
          exact hsubn
        · rw [if_neg hin, subAt_eq_nil_of_all_head (fun hh => hin hh.symm) hheads, build_nil]
    have hv : findVal [] ((a :: kt, v) :: q1 :: l') = none := by
      rw [findVal_cons, if_neg (by simp)]
      apply findVal_nil_of_keys_ne_nil
      intro kv hkv
      obtain ⟨tl, htl⟩ := hheads kv hkv
      rw [htl]
      simp
    rw [hch, hv]

/-- Key correctness theorem: inserting a fresh key into the canonical trie
of an association list yields the canonical trie of the extended list. -/
theorem insert_build_aux : ∀ (m : Nat) (l : List (List Nat × List Nat)) (k v : List Nat),
    kvSize l ≤ m → NodupKeys l → k ∉ keysOf l → ValidKey k → ValidKeys l →
    insert (build l) k v = build ((k, v) :: l) := by
  intro m
  induction m with
  | zero =>
    intro l k v hsize _ _ _ _
    have h1 : l = [] := by
      cases l with
      | nil => rfl
      | cons kv rest => rw [kvSize_cons] at hsize; omega
    subst h1
    rw [build_nil, insert_empty, build_single' k v]
  | succ m ih =>
    intro l k v hsize hnd hout hvk hvl
    match l with
    | [] => rw [build_nil, insert_empty, build_single' k v]
    | [(p, w)] =>
      have hne : k ≠ p := by
        intro hh
        exact hout (by rw [keysOf_cons, hh]; exact List.mem_cons_self _ _)
      rw [build_single' p w, insert_leaf, if_neg hne]
      exact (build_pair hne hvk (hvl (p, w) (List.mem_cons_self _ _))).symm
    | q1 :: q2 :: qs =>
      obtain ⟨c, hall⟩ := lcpAll_ne_none
        (show keysOf (q1 :: q2 :: qs) ≠ [] by simp [keysOf])
      by_cases hc : c = []
      · subst hc
        rw [build_branch hall]
        cases k with
        | nil =>
          rw [insert_branch_nil]
          have hall2 : lcpAll (keysOf ((([] : List Nat), v) :: q1 :: q2 :: qs)) =
              some [] := by
            rw [keysOf_cons, lcpAll_cons, hall]
            simp [lcp_nil_left]
          rw [build_branch hall2]
          have hch : (mkChildren fun i =>
              build (subAt i ((([] : List Nat), v) :: q1 :: q2 :: qs))) =
              mkChildren fun i => build (subAt i (q1 :: q2 :: qs)) := by
            apply mkChildren_congr
            intro i _
            rw [subAt_cons_nilkey]
          have hv : findVal [] ((([] : List Nat), v) :: q1 :: q2 :: qs) = some v := by
            rw [findVal_cons, if_pos rfl]
          rw [hch, hv]
        | cons n tl =>
          have hn : n < 16 := hvk n (List.mem_cons_self _ _)
          rw [insert_branch_cons, mkChildren_getD hn]
          have hsub_size : kvSize (subAt n (q1 :: q2 :: qs)) ≤ m := by
            have h1 := kvSize_subAt_le n (q1 :: q2 :: qs)
            simp only [List.length_cons] at h1
            omega
          have hfresh : tl ∉ keysOf (subAt n (q1 :: q2 :: qs)) :=
            fun hmem => hout (mem_keysOf_subAt hmem)
          have hvtl : ValidKey tl := fun x hx => hvk x (List.mem_cons_of_mem _ hx)
          rw [ih _ tl v hsub_size (nodupKeys_subAt n hnd) hfresh hvtl
            (validKeys_subAt n hvl)]
          have hall2 : lcpAll (keysOf ((n :: tl, v) :: q1 :: q2 :: qs)) = some [] := by
            rw [keysOf_cons, lcpAll_cons, hall]
            simp [lcp_nil_right]
          rw [build_branch hall2]
          have hch : (mkChildren fun i =>
              build (subAt i ((n :: tl, v) :: q1 :: q2 :: qs))) =
              (mkChildren fun i => build (subAt i (q1 :: q2 :: qs))).set n
                (build ((tl, v) :: subAt n (q1 :: q2 :: qs))) := by
            rw [mkChildren_set _ hn]
            apply mkChildren_congr
            intro i hi
            rw [subAt_cons]
            by_cases hin : i = n
            · subst hin
              rw [if_pos rfl, if_pos rfl]
            · rw [if_neg fun hh => hin hh.symm, if_neg hin]
          have hv2 : findVal [] ((n :: tl, v) :: q1 :: q2 :: qs) =
              findVal [] (q1 :: q2 :: qs) := by
            rw [findVal_cons, if_neg (by simp)]
          rw [hch, hv2]
      · rw [build_ext hall hc]
        have hpre := lcpAll_commonPref _ c hall
        by_cases hfull : (lcp k c).length = c.length
        · have hkc : lcp k c = c := (lcp_prefix_right k c).eq_of_length hfull
          have hck : c <+: k := by rw [← hkc]; exact lcp_prefix_left k c
          rw [insert_ext_full _ _ hfull]
          obtain ⟨k2, hk2⟩ := hck
          have hkdrop : k.drop c.length = k2 := by rw [← hk2, List.drop_left]
          have hstrip_size : kvSize (stripAll c.length (q1 :: q2 :: qs)) ≤ m := by
            have hq1mem : q1.1 ∈ keysOf (q1 :: q2 :: qs) := by
              rw [keysOf_cons]
              exact List.mem_cons_self _ _
            have h2 := (hpre q1.1 hq1mem).length_le
            have h3 := List.length_pos.mpr hc
            have h1 : kvSize (stripAll c.length (q1 :: q2 :: qs)) <
                kvSize (q1 :: q2 :: qs) :=
              kvSize_stripAll_lt h3 q1 (q2 :: qs) (by omega)
            omega
          have hfresh : k.drop c.length ∉ keysOf (stripAll c.length (q1 :: q2 :: qs)) := by
            intro hmem
            rw [keysOf_stripAll] at hmem
            obtain ⟨k0, hk0, hdrop⟩ := List.mem_map.mp hmem
            obtain ⟨t2, ht2⟩ := hpre k0 hk0
            rw [hkdrop] at hdrop
            rw [← ht2, List.drop_left] at hdrop
            have : k = k0 := by rw [← hk2, ← ht2, hdrop]
            exact hout (this ▸ hk0)
          have hvdrop : ValidKey (k.drop c.length) :=
            fun x hx => hvk x (List.drop_subset _ _ hx)
          rw [ih _ _ v hstrip_size
            (nodupKeys_stripAll hpre hnd) hfresh hvdrop (validKeys_stripAll _ hvl)]
          have hall2 : lcpAll (keysOf ((k, v) :: q1 :: q2 :: qs)) = some c := by
            rw [keysOf_cons, lcpAll_cons, hall]
            simp [hkc]
          rw [build_ext hall2 hc]
          conv_rhs => rw [stripAll_cons]
        · rw [insert_ext_split _ _ hfull]
          have hc0pre : lcp k c <+: c := lcp_prefix_right k c
          have hc0k : lcp k c <+: k := lcp_prefix_left k c
          set c0 := lcp k c with hc0def
          obtain ⟨cc, hcc⟩ := hc0pre
          obtain ⟨k0, hk0⟩ := hc0k
          have hccne : cc ≠ [] := by
            intro hh
            rw [hh, List.append_nil] at hcc
            exact hfull (by rw [hcc])
          have hcdrop : c.drop c0.length = cc := by rw [← hcc, List.drop_left]
          have hkdrop : k.drop c0.length = k0 := by rw [← hk0, List.drop_left]
          have hdiv : lcp k0 cc = [] := by
            have happ := lcp_append_same c0 k0 cc
            rw [hk0, hcc, ← hc0def] at happ
            have h2 : c0 ++ ([] : List Nat) = c0 ++ lcp k0 cc := by
              rw [List.append_nil]
              exact happ
            exact (List.append_cancel_left h2).symm
          have hvk0 : ValidKey k0 :=
            fun x hx => hvk x (by rw [← hk0]; exact List.mem_append_right _ hx)
          have hvstrip := validKeys_stripAll c0.length hvl
          rw [hcdrop, hkdrop]
          by_cases hc0nil : c0 = []
          · rw [hc0nil, extWrap_nil]
            have hccc : cc = c := by rw [← hcc, hc0nil]; rfl
            have hkk0 : k0 = k := by rw [← hk0, hc0nil]; rfl
            subst hccc
            subst hkk0
            have hdivk : lcp k0 cc = [] := hdiv
            rw [build_cons_diverge (by simp) hall hc hdiv hvk0 hvl]
            cases hcc2 : cc with
            | nil => exact absurd hcc2 hccne
            | cons n ct =>
              subst hcc2
              rw [splitNodeExt_cons]
              simp only [List.headI_cons, List.tail_cons]
          · rw [extWrap_ne hc0nil]
            have hall2 : lcpAll (keysOf ((k, v) :: q1 :: q2 :: qs)) = some c0 := by
              rw [keysOf_cons, lcpAll_cons, hall]
            have hlen2 : 2 ≤ ((k, v) :: q1 :: q2 :: qs).length := by simp
            have hstrip_all : lcpAll (keysOf (stripAll c0.length (q1 :: q2 :: qs))) =
                some cc := by
              rw [keysOf_stripAll]
              have h2 := lcpAll_strip_partial hall ⟨cc, hcc⟩
              rw [hcdrop] at h2
              exact h2
            have hlen3 : 2 ≤ (stripAll c0.length (q1 :: q2 :: qs)).length := by
              simp [stripAll]
            conv_rhs =>
              rw [build_ext' hlen2 hall2 hc0nil, stripAll_cons, hkdrop,
                build_cons_diverge hlen3 hstrip_all hccne hdiv hvk0 hvstrip,
                stripAll_stripAll]
            cases hcc2 : cc with
            | nil => exact absurd hcc2 hccne
            | cons n ct =>
              subst hcc2
              rw [splitNodeExt_cons]
              simp only [List.headI_cons, List.tail_cons]
              have hclen : (n :: ct).length + c0.length = c.length := by
                rw [← hcc]
                simp [List.length_append]
                omega
              rw [hclen]

theorem insert_build {l : List (List Nat × List Nat)} {k v : List Nat}
    (hnd : NodupKeys l) (hout : k ∉ keysOf l) (hvk : ValidKey k)
    (hvl : ValidKeys l) :
    insert (build l) k v = build ((k, v) :: l) :=
  insert_build_aux (kvSize l) l k v le_rfl hnd hout hvk hvl

/-! #### From successive insertion to the canonical trie -/

/-- The association list with every byte key converted to nibbles. -/
def nibbleList (l : List (List Nat × List Nat)) : List (List Nat × List Nat) :=
  l.map fun kv => (bytesToNibbles kv.1, kv.2)

theorem trieOfPairs_eq_foldl (pairs : List (List Nat × List Nat)) :
    trieOfPairs pairs =
      (nibbleList pairs).foldl (fun t kv => insert t kv.1 kv.2) .empty := by
  rw [trieOfPairs, nibbleList, List.foldl_map]

theorem foldl_insert_eq_build : ∀ l : List (List Nat × List Nat),
    NodupKeys l → ValidKeys l →
    l.foldl (fun t kv => insert t kv.1 kv.2) .empty = build l.reverse := by
  intro l
  induction l using List.reverseRecOn with
  | nil =>
    intro _ _
    rw [List.reverse_nil, build_nil]
    rfl
  | append_singleton l a ih =>
    obtain ⟨ka, va⟩ := a
    intro hnd hvl
    have hndl : NodupKeys l := by
      have h1 : (keysOf l ++ [ka]).Nodup := by
        have h2 := hnd
        rw [NodupKeys, keysOf, List.map_append] at h2
        simpa using h2
      exact h1.of_append_left
    have hvll : ValidKeys l := fun kv h => hvl kv (List.mem_append_left _ h)
    rw [List.foldl_append, ih hndl hvll]
    simp only [List.foldl_cons, List.foldl_nil]
    have hndr : NodupKeys l.reverse := by
      rw [NodupKeys, keysOf, List.map_reverse, List.nodup_reverse]
      exact hndl
    have hout : ka ∉ keysOf l.reverse := by
      intro hmem
      rw [keysOf, List.map_reverse, List.mem_reverse] at hmem
      have h1 : (keysOf l ++ [ka]).Nodup := by
        have h2 := hnd
        rw [NodupKeys, keysOf, List.map_append] at h2
        simpa using h2
      have hdisj := List.disjoint_of_nodup_append h1
      exact hdisj hmem (List.mem_singleton_self ka)
    have hvk : ValidKey ka := hvl (ka, va) (List.mem_append_right _ (List.mem_singleton_self _))
    have hvr : ValidKeys l.reverse := fun kv h =>
      hvll kv (List.mem_reverse.mp h)
    rw [insert_build hndr hout hvk hvr, List.reverse_append]
    rfl

theorem bytesToNibbles_cons (b : Nat) (bs : List Nat) :
    bytesToNibbles (b :: bs) = b / 16 :: b % 16 :: bytesToNibbles bs := by
  simp [bytesToNibbles]

theorem bytesToNibbles_injective : ∀ {k1 k2 : List Nat},
    bytesToNibbles k1 = bytesToNibbles k2 → k1 = k2 := by
  intro k1
  induction k1 with
  | nil =>
    intro k2 h
    cases k2 with
    | nil => rfl
    | cons b bs => rw [bytesToNibbles_cons] at h; cases h
  | cons a as ih =>
    intro k2 h
    cases k2 with
    | nil => rw [bytesToNibbles_cons] at h; cases h
    | cons b bs =>
      rw [bytesToNibbles_cons, bytesToNibbles_cons] at h
      injection h with h1 h
      injection h with h2 h3
      have hab : a = b := by omega
      rw [hab, ih h3]

theorem validKeys_nibbleList {l : List (List Nat × List Nat)}
    (h : ∀ p ∈ l, ∀ b ∈ p.1, b < 256) : ValidKeys (nibbleList l) := by
  intro kv hkv
  obtain ⟨kv0, hkv0, hf⟩ := List.mem_map.mp hkv
  subst hf
  intro x hx
  simp only [bytesToNibbles] at hx
  rw [List.mem_flatten] at hx
  obtain ⟨seg, hseg, hxseg⟩ := hx
  obtain ⟨b, hb, hbseg⟩ := List.mem_map.mp hseg
  subst hbseg
  have hblt := h kv0 hkv0 b hb
  rcases List.mem_cons.mp hxseg with rfl | hx2
  · omega
  · rcases List.mem_cons.mp hx2 with rfl | hx3
    · omega
    · cases hx3

theorem nodupKeys_nibbleList {l : List (List Nat × List Nat)}
    (h : (l.map Prod.fst).Nodup) : NodupKeys (nibbleList l) := by
  rw [NodupKeys, keysOf, nibbleList, List.map_map]
  have heq : (Prod.fst ∘ fun kv : List Nat × List Nat => (bytesToNibbles kv.1, kv.2)) =
      fun kv : List Nat × List Nat => bytesToNibbles kv.1 := rfl
  rw [heq, show (fun kv : List Nat × List Nat => bytesToNibbles kv.1) =
    bytesToNibbles ∘ Prod.fst from rfl, ← List.map_map]
  exact h.map fun a b hab => bytesToNibbles_injective hab

/-- **C5.** The trie root hash is a pure function of the multiset of
`(key, value)` pairs inserted: for every finite collection of distinct-key
pairs (keys being byte strings) and every two insertion orders of those
pairs, the resulting root hash of the trie built by successive insertion is
identical. -/
theorem claim_C5 : ∀ l1 l2 : List (List Nat × List Nat),
    l1.Perm l2 → (l1.map Prod.fst).Nodup →
    (∀ p ∈ l1, ∀ b ∈ p.1, b < 256) →
    rootHash (trieOfPairs l1) = rootHash (trieOfPairs l2) := by
  intro l1 l2 hp hnd hbytes
  have hp2 : (nibbleList l1).Perm (nibbleList l2) := hp.map _
  have hnd1 : NodupKeys (nibbleList l1) := nodupKeys_nibbleList hnd
  have hv1 : ValidKeys (nibbleList l1) := validKeys_nibbleList hbytes
  have hnd2 : NodupKeys (nibbleList l2) := nodupKeys_perm hp2 hnd1
  have hv2 : ValidKeys (nibbleList l2) := fun kv h => hv1 kv (hp2.symm.subset h)
  have htrie : trieOfPairs l1 = trieOfPairs l2 := by
    rw [trieOfPairs_eq_foldl, trieOfPairs_eq_foldl,
      foldl_insert_eq_build _ hnd1 hv1, foldl_insert_eq_build _ hnd2 hv2]
    apply build_perm
    · exact ((List.reverse_perm _).trans hp2).trans (List.reverse_perm _).symm
    · rw [NodupKeys, keysOf, List.map_reverse, List.nodup_reverse]
      exact hnd1
  rw [htrie]

/-- Witness for `claim_C5`: the same two pairs inserted in both orders. -/
theorem claim_C5_witness :
    (([([0], [7]), ([1], [9])] : List (List Nat × List Nat)).Perm
        [([1], [9]), ([0], [7])] ∧
      (([([0], [7]), ([1], [9])] : List (List Nat × List Nat)).map Prod.fst).Nodup ∧
      (∀ p ∈ ([([0], [7]), ([1], [9])] : List (List Nat × List Nat)),
        ∀ b ∈ p.1, b < 256)) ∧
    rootHash (trieOfPairs [([0], [7]), ([1], [9])]) =
      rootHash (trieOfPairs [([1], [9]), ([0], [7])]) :=
  ⟨⟨List.Perm.swap _ _ _, by decide, by decide⟩,
    claim_C5 _ _ (List.Perm.swap _ _ _) (by decide) (by decide)⟩

end RpcTests
